import Mathlib

/-!
Verification of the pipeline-parallel program partitioner and cross-stage
liveness scheduler found in `python/paddle/distributed/passes/pass_utils.py`.

The Python module operates on Paddle's static-graph IR: a `Program` is a list
of `Block`s (block 0 is the global block); a block holds an ordered list of
operators and a set of variable declarations.  Each operator has named input
and output slots (each slot maps to an ordered list of variable names), a
type string, a role tag, and a handful of attributes touched by this module
(`dynamic_shape`, `use_calc_stream`, `ring_id`, `pipeline_flag`) together
with the `dist_attr` fields `execution_stream` and `stream_priority`.  The
embedding models the attribute bag by one field per attribute this module
reads or writes, since every access in the source uses a fixed attribute
name at a fixed type.
-/

namespace PassUtils

/-- Modelled from the spec: the operator-role classifiers `is_forward_op`,
`is_backward_op`, `is_optimize_op` are imported black boxes (not part of the
excerpted source); per the spec they classify each operator's role tag as one
of Forward / Backward / Optimize, with any remaining role unclassified
(`Other`). -/
inductive Role where
  | Forward
  | Backward
  | Optimize
  | Other
deriving DecidableEq, Repr, Inhabited

/-- Modelled from the spec: `is_forward_op` classifier. -/
def is_forward_op (r : Role) : Bool := r = Role.Forward

/-- Modelled from the spec: `is_backward_op` classifier. -/
def is_backward_op (r : Role) : Bool := r = Role.Backward

/-- Modelled from the spec: `is_optimize_op` classifier. -/
def is_optimize_op (r : Role) : Bool := r = Role.Optimize

/-- Variable kinds; the listed non-tensor kinds form `__not_shape_var_type__`
in the source. `lodTensor` stands for the ordinary tensor kind. -/
inductive VarType where
  | lodTensor
  | reader
  | stepScopes
  | lodTensorArray
  | feedMinibatch
  | fetchList
deriving DecidableEq, Repr, Inhabited

/-- The source's `__not_shape_var_type__` list. -/
def notShapeVarType : List VarType :=
  [VarType.reader, VarType.stepScopes, VarType.lodTensorArray,
   VarType.feedMinibatch, VarType.fetchList]

/-- A variable declaration.  Only the metadata this module branches on is
kept (name, kind, persistability, parameter-ness); the remaining metadata
(shape, dtype, lod level, clip/optimizer attributes) is copied verbatim by
the re-materializer and never inspected, so it is not represented. -/
structure Var where
  name : String
  vtype : VarType := VarType.lodTensor
  persistable : Bool := false
  isParam : Bool := false
deriving DecidableEq, Repr, Inhabited

/-- An operator.  `inputSlots`/`outputSlots` model the named slot maps; the
remaining fields model the attributes and `dist_attr` fields that
`pass_utils.py` reads or writes. -/
structure Op where
  type : String
  inputSlots : List (String × List String) := []
  outputSlots : List (String × List String) := []
  role : Role := Role.Forward
  ringId : Int := 0
  dynamicShape : Bool := true
  useCalcStream : Bool := true
  pipelineFlag : Bool := false
  executionStream : String := "default"
  streamPriority : Int := 0
deriving DecidableEq, Repr, Inhabited

/-- `op.input_arg_names`: concatenation of all input-slot variable names. -/
def Op.input_arg_names (op : Op) : List String :=
  (op.inputSlots.map Prod.snd).flatten

/-- `op.output_arg_names`: concatenation of all output-slot variable names. -/
def Op.output_arg_names (op : Op) : List String :=
  (op.outputSlots.map Prod.snd).flatten

/-- A block: ordered operator list plus variable declarations, with the
parent-index / forward-block-index links used for recursive lookup. -/
structure Block where
  ops : List Op := []
  vars : List Var := []
  parentIdx : Int := -1
  forwardBlockIdx : Int := -1
deriving DecidableEq, Repr, Inhabited

/-- A program: an ordered list of blocks, block 0 being the global block. -/
structure Program where
  blocks : List Block := []
deriving DecidableEq, Repr, Inhabited

/-- `program.global_block()`: block 0. -/
def Program.global_block (p : Program) : Block := p.blocks.headI

/-- A freshly constructed `Program()` holds a single empty global block. -/
def Program.empty : Program := { blocks := [{}] }

/-! ## Ordered-dict helpers

Python `OrderedDict`s keyed by variable names with value `True` are modelled
as duplicate-free `List String` in insertion order. -/

/-- Insert a key at the end of an ordered dict if it is not present
(assigning `od[s] = True` when `s` is present leaves the order unchanged). -/
def odInsert (od : List String) (s : String) : List String :=
  if od.contains s then od else od ++ [s]

/-- `list_to_ordered_dict`: fold a list into an ordered dict, keeping the
first occurrence of each element. -/
def list_to_ordered_dict (listObj : List String) (od : List String := []) :
    List String :=
  listObj.foldl odInsert od

/-- `get_inputs_of_program`: the variables that first occur as an input of
an op of the global block, in order of first occurrence.  The fold state is
(visited variable set, collected input list). -/
def get_inputs_of_program (program : Program) : List String :=
  (program.global_block.ops.foldl
    (fun (st : List String × List String) op =>
      let st := op.input_arg_names.foldl
        (fun (st : List String × List String) n =>
          if st.1.contains n then st else (st.1 ++ [n], st.2 ++ [n])) st
      (op.output_arg_names.foldl
        (fun (visited : List String) n =>
          if visited.contains n then visited else visited ++ [n]) st.1,
       st.2))
    ([], [])).2

/-- `get_outputs_of_program`: every variable written in the global block, in
first-write order. -/
def get_outputs_of_program (program : Program) : List String :=
  program.global_block.ops.foldl
    (fun od op => list_to_ordered_dict op.output_arg_names od) []

/-! ## Graph slicer: `prune_program` and `split_program` -/

/-- Negative-index resolution against the op count, shared by
`prune_program` (`if idx < 0: idx += op_num`) and `split_program`
(`idx if idx >= 0 else idx + op_num`). -/
def resolveIdx (idx opNum : Int) : Int :=
  if idx < 0 then idx + opNum else idx

/-- The failed `assert`s of `prune_program` (malformed index range). -/
inductive PruneError where
  | invalidRange
deriving DecidableEq, Repr

/-- `prune_program(program, start_op_idx, end_op_idx)`: structural copy
keeping only global-block ops in `[start, end)` after negative-index
resolution, then dropping every global-block variable not referenced by a
retained op.  The source's `assert`s are modelled as `invalidRange`
errors. -/
def prune_program (program : Program) (startOpIdx endOpIdx : Int) :
    Except PruneError Program :=
  let opNum : Int := program.global_block.ops.length
  let s := resolveIdx startOpIdx opNum
  if ¬ (0 ≤ s ∧ s < opNum) then .error .invalidRange
  else
    let e := resolveIdx endOpIdx opNum
    if ¬ (0 ≤ e ∧ e ≤ opNum) then .error .invalidRange
    else if ¬ (s < e) then .error .invalidRange
    else
      let retained := (program.global_block.ops.take e.toNat).drop s.toNat
      let validVars : List String :=
        retained.flatMap (fun op => op.input_arg_names ++ op.output_arg_names)
      let newGlobal : Block :=
        { program.global_block with
          ops := retained,
          vars := program.global_block.vars.filter
            (fun v => validVars.contains v.name) }
      .ok { blocks := newGlobal :: program.blocks.tail }

/-- The failed `assert`s of `split_program`. -/
inductive SplitError where
  | emptyIndices
  | emptyProgram
  | invalidBoundary
  | pruneFailed (e : PruneError)
deriving DecidableEq, Repr

/-- Boundary normalization of `split_program`: resolve negative indices
against the op count, prepend `0` when the first boundary is not `0`, and
append the op count when the last boundary is not the op count. -/
def normalize_op_indices (opIndices : List Int) (opNum : Int) : List Int :=
  let resolved := opIndices.map (fun idx => resolveIdx idx opNum)
  let resolved := if resolved.head? ≠ some 0 then 0 :: resolved else resolved
  if resolved.getLast? ≠ some opNum then resolved ++ [opNum] else resolved

/-- The source's strictly-sorted check over consecutive boundary pairs. -/
def strictlyIncreasing : List Int → Bool
  | [] => true
  | [_] => true
  | a :: b :: rest => a < b && strictlyIncreasing (b :: rest)

/-- Consecutive pairs `(l[i], l[i+1])` of a list, mirroring the
`for idx in range(len(op_indices) - 1)` loops of `split_program`. -/
def consecutivePairs : List Int → List (Int × Int)
  | a :: b :: rest => (a, b) :: consecutivePairs (b :: rest)
  | _ => []

/-- Per-sub-program input variable lists. -/
def splitInputVars (progs : List Program) : List (List String) :=
  progs.map get_inputs_of_program

/-- Per-sub-program raw output variable lists
(`list_to_ordered_dict(get_outputs_of_program(p))`). -/
def splitRawOutputVars (progs : List Program) : List (List String) :=
  progs.map (fun p => list_to_ordered_dict (get_outputs_of_program p))

/-- The `for j in reversed(range(i)) ... break` scan: the nearest earlier
sub-program whose raw outputs contain `name`. -/
def attributionTarget (outputVars : List (List String)) (i : Nat)
    (name : String) : Option Nat :=
  (List.range i).reverse.find? (fun j => (outputVars.getD j []).contains name)

/-- One step of the valid-output attribution loop: record `name` as a valid
output of the nearest earlier producer, when one exists. -/
def applyAttribution (outputVars : List (List String))
    (valid : List (List String)) (i : Nat) (name : String) :
    List (List String) :=
  match attributionTarget outputVars i name with
  | some j => valid.set j (odInsert (valid.getD j []) name)
  | none => valid

/-- The valid-output computation of `split_program`: the last sub-program
keeps its raw outputs; every input of sub-program `i ≥ 1` is attributed to
the nearest earlier sub-program that outputs it. -/
def splitValidOutputVars (progs : List Program) : List (List String) :=
  let numSplit := progs.length
  let inputVars := splitInputVars progs
  let outputVars := splitRawOutputVars progs
  let init : List (List String) :=
    (List.range numSplit).map
      (fun k => if k = numSplit - 1 then outputVars.getD k [] else [])
  (List.range' 1 (numSplit - 1)).foldl
    (fun valid i =>
      (inputVars.getD i []).foldl
        (fun valid name => applyAttribution outputVars valid i name) valid)
    init

/-- `split_program(program, op_indices)`: normalize boundaries, check them
strictly increasing, cut the program into consecutive `prune_program`
slices, and report per-slice input and valid-output variable names. -/
def split_program (program : Program) (opIndices : List Int) :
    Except SplitError (List Program × List (List String) × List (List String)) :=
  if opIndices.isEmpty then .error .emptyIndices
  else
    let opNum : Int := program.global_block.ops.length
    if opNum ≤ 0 then .error .emptyProgram
    else
      let idxs := normalize_op_indices opIndices opNum
      if ¬ strictlyIncreasing idxs then .error .invalidBoundary
      else
        match (consecutivePairs idxs).mapM
            (fun ab => prune_program program ab.1 ab.2) with
        | .error e => .error (.pruneFailed e)
        | .ok progs =>
          .ok (progs, splitInputVars progs, splitValidOutputVars progs)

/-! ## OpInOutInfo

`core.infer_no_need_buffer_slots(op.type, inputs, outputs, attrs)` is an
external registry; all of its arguments are read off the operator, so it is
modelled as an explicit parameter `registry : Op → Finset String` returning
the set of no-need-buffer slot names, as the spec's design notes direct. -/

/-- The state of an `OpInOutInfo` record after construction/`build_info`. -/
structure OpInOutInfo where
  isBuild : Bool := false
  noNeedBufferSlots : Finset String := ∅
  otherArgNamesSet : Finset String := ∅
deriving DecidableEq

/-- `OpInOutInfo.build_info(op)`: query the registry; when it reports no
no-need-buffer slots, return early (leaving `_is_build` unset); otherwise
collect every variable name of a slot not marked no-need-buffer. -/
def OpInOutInfo.build_info (registry : Op → Finset String) (op : Op) :
    OpInOutInfo :=
  let nnb := registry op
  if nnb = ∅ then { isBuild := false, noNeedBufferSlots := nnb }
  else
    let others :=
      (op.inputSlots ++ op.outputSlots).foldl
        (fun acc slot =>
          if slot.1 ∈ nnb then acc
          else slot.2.foldl (fun acc n => insert n acc) acc) ∅
    { isBuild := true, noNeedBufferSlots := nnb, otherArgNamesSet := others }

/-- `OpInOutInfo.is_needed(arg_name)`. -/
def OpInOutInfo.is_needed (info : OpInOutInfo) (argName : String) : Bool :=
  decide (info.noNeedBufferSlots = ∅) || decide (argName ∈ info.otherArgNamesSet)

/-! ## Cross-stage liveness scheduler (`set_skip_gc_vars`) -/

/-- Modelled from the spec: `Block._find_var_recursive` is framework code
outside the excerpt; per the spec's design notes it resolves a variable name
by explicit iteration over the parent-block chain.  `fuel` bounds the walk
by the number of blocks. -/
def findVarRecursive (p : Program) : Nat → Nat → String → Option Var
  | 0, _, _ => none
  | fuel + 1, blockIdx, name =>
    match p.blocks[blockIdx]? with
    | none => none
    | some b =>
      match b.vars.find? (fun v => v.name = name) with
      | some v => some v
      | none =>
        if b.parentIdx < 0 then none
        else findVarRecursive p fuel b.parentIdx.toNat name

/-- `var_can_be_deleted(var_name, block)`: the name resolves to a
declaration (recursively through ancestors) and is not persistable.  The
block is designated by its index within its program. -/
def var_can_be_deleted (p : Program) (blockIdx : Nat) (varName : String) :
    Bool :=
  match findVarRecursive p p.blocks.length blockIdx varName with
  | some v => ¬ v.persistable
  | none => false

/-- Operator types skipped by step 1 of `set_skip_gc_vars`. -/
def skipGcIgnoredOpTypes : List String :=
  ["c_sync_comm_stream", "conditional_block", "nop", "while"]

/-- Step 1 of `set_skip_gc_vars` for one program: every referenced variable
name that can be deleted (non-persistable, declared) and is needed per
`OpInOutInfo`, skipping the known control operator types. -/
def requiredVarsOfProgram (registry : Op → Finset String) (prog : Program) :
    Finset String :=
  (List.range prog.blocks.length).foldl
    (fun acc blockIdx =>
      (prog.blocks.getD blockIdx {}).ops.foldl
        (fun acc op =>
          if op.type ∈ skipGcIgnoredOpTypes then acc
          else
            let opInfo := OpInOutInfo.build_info registry op
            (op.input_arg_names ++ op.output_arg_names).foldl
              (fun acc argName =>
                if var_can_be_deleted prog blockIdx argName &&
                    opInfo.is_needed argName then
                  insert argName acc
                else acc) acc) acc) ∅

/-- Python `dict` lookup in an association list built by `dict(zip(…))`:
entries later in the list override earlier ones. -/
def dictFind (l : List (String × Program)) (key : String) : Option Program :=
  (l.reverse.find? (fun pr => pr.1 = key)).map Prod.snd

/-- `type_to_required_vars[t]` as a total function; the Python dict lookup
raises `KeyError` for a type outside `job_types`, so theorems about jobs
hypothesize that every job type occurs in `job_types`. -/
def typeToRequiredVars (registry : Op → Finset String)
    (typeToProgram : List (String × Program)) (ty : String) : Finset String :=
  match dictFind typeToProgram ty with
  | some prog => requiredVarsOfProgram registry prog
  | none => ∅

/-- A job instance: a job type plus a micro-batch index. -/
structure Job where
  type : String
  microBatchId : Nat
deriving DecidableEq, Repr, Inhabited

/-- Errors of `set_skip_gc_vars`: the `num_micro_batches >= 1` assertion and
the backward-empty invariant assertion. -/
inductive GcError where
  | invalidNumMicroBatches
  | inconsistentScheduleInvariant
deriving DecidableEq, Repr

/-- Step 2 of `set_skip_gc_vars`: scan the job sequence in reverse order
(`for job_id in reversed(range(num_jobs))` — modelled by recursing on the
tail first), keeping one accumulated suffix set per micro-batch index.  The
per-micro-batch list `suffixed_required_vars` is modelled as a function on
micro-batch indices; Python's list indexing agrees with it on indices below
`num_micro_batches`.  Returns each job paired with its computed
`skip_gc_vars`, plus the final suffix state. -/
def assignSkipGcVars (req : String → Finset String)
    (suffix : Nat → Finset String) :
    List Job → Except GcError (List (Job × Finset String) × (Nat → Finset String))
  | [] => .ok ([], suffix)
  | job :: rest => do
    let (restResult, suffix1) ← assignSkipGcVars req suffix rest
    let requiredVars := req job.type
    let skipGcVars := requiredVars ∩ suffix1 job.microBatchId
    if job.type = "backward" ∧ skipGcVars ≠ ∅ then
      .error .inconsistentScheduleInvariant
    else
      .ok ((job, skipGcVars) :: restResult,
        fun m => if m = job.microBatchId then suffix1 m ∪ requiredVars
                 else suffix1 m)

/-- `set_skip_gc_vars(num_micro_batches, job_types, sub_programs, jobs)`:
step 1 computes the per-type required-variable sets, step 2 assigns each
job its skip-GC set.  The trailing `FLAGS_enable_pir_in_executor` branch
only rewrites the sub-programs through `prepare_ir_program` and never
touches the jobs' skip-GC sets, so it is not part of the returned value
modelled here. -/
def set_skip_gc_vars (numMicroBatches : Nat) (jobTypes : List String)
    (subPrograms : List Program) (jobs : List Job)
    (registry : Op → Finset String) :
    Except GcError (List (Job × Finset String)) :=
  if numMicroBatches < 1 then .error .invalidNumMicroBatches
  else
    let typeToProgram := jobTypes.zip subPrograms
    let req := typeToRequiredVars registry typeToProgram
    (assignSkipGcVars req (fun _ => ∅) jobs).map Prod.fst

/-! ## Sub-program re-materializer -/

/-- Modelled from the spec: registering a variable in a destination block
(`Block.create_var` / the `Parameter` constructor, framework code outside
the excerpt) finds or creates the declaration by name — a name already
declared in the destination is not declared again. -/
def Block.createVar (b : Block) (v : Var) : Block :=
  if b.vars.any (fun w => w.name = v.name) then b
  else { b with vars := b.vars ++ [v] }

/-- `_create_param(dst_block, src_var)`: re-declare a parameter, copying its
training metadata. -/
def _create_param (dstBlock : Block) (srcVar : Var) : Block :=
  dstBlock.createVar srcVar

/-- `_create_inter(dst_block, src_var)`: re-declare an ordinary variable,
copying its tensor metadata. -/
def _create_inter (dstBlock : Block) (srcVar : Var) : Block :=
  dstBlock.createVar srcVar

/-- `_create_var(src_block, dst_block, src_varname, force_create)`: resolve
the source declaration (directly, or recursively through ancestors under
`force_create`) and re-declare it in the destination — kind-only for the
non-tensor kinds, as a parameter, or as an ordinary variable.  The source
block is designated by its index in `srcProg`.  The `none` case is
unreachable from `_create_program`, which guards each call with the same
lookup. -/
def varLookup (srcProg : Program) (srcBlockIdx : Nat) (srcVarname : String)
    (forceCreate : Bool) : Option Var :=
  if ¬ forceCreate then
    (srcProg.blocks.getD srcBlockIdx {}).vars.find?
      (fun v => v.name = srcVarname)
  else findVarRecursive srcProg srcProg.blocks.length srcBlockIdx srcVarname

/-- The body of `_create_var` proper: dispatch on the resolved source
declaration's kind. -/
def _create_var (srcProg : Program) (srcBlockIdx : Nat) (dstBlock : Block)
    (srcVarname : String) (forceCreate : Bool) : Block :=
  match varLookup srcProg srcBlockIdx srcVarname forceCreate with
  | none => dstBlock
  | some srcVar =>
    if srcVar.vtype ∈ notShapeVarType then dstBlock.createVar srcVar
    else if srcVar.isParam then _create_param dstBlock srcVar
    else _create_inter dstBlock srcVar

/-- `src_block.has_var(name)`: a declaration with that name in the block
itself. -/
def Block.has_var (b : Block) (name : String) : Bool :=
  b.vars.any (fun v => v.name = name)

/-- The per-variable guard of `_create_program`:
`src_block.has_var(name) or (force_create and
src_block._find_var_recursive(name))`. -/
def createGuard (srcProg : Program) (srcBlockIdx : Nat) (forceCreate : Bool)
    (name : String) : Bool :=
  (srcProg.blocks.getD srcBlockIdx {}).has_var name ||
    (forceCreate &&
      (findVarRecursive srcProg srcProg.blocks.length srcBlockIdx
        name).isSome)

/-- One guarded `_create_var` invocation of `_create_program`. -/
def createVarStep (srcProg : Program) (srcBlockIdx : Nat) (forceCreate : Bool)
    (dst : Block) (name : String) : Block :=
  if createGuard srcProg srcBlockIdx forceCreate name then
    _create_var srcProg srcBlockIdx dst name forceCreate
  else dst

/-- `_create_program(src_block, dst_block, src_op, force_create)`: append a
structural copy of the operator to the destination block
(`dst_block.desc.append_op(); dst_op_desc.copy_from(src_op.desc)`), then
re-declare every input/output variable the source block can resolve. -/
def _create_program (srcProg : Program) (srcBlockIdx : Nat) (dstBlock : Block)
    (srcOp : Op) (forceCreate : Bool := false) : Block :=
  let dstBlock := { dstBlock with ops := dstBlock.ops ++ [srcOp] }
  let dstBlock := srcOp.input_arg_names.foldl
    (createVarStep srcProg srcBlockIdx forceCreate) dstBlock
  srcOp.output_arg_names.foldl
    (createVarStep srcProg srcBlockIdx forceCreate) dstBlock

/-! ## Synchronization / stream-assignment passes -/

/-- Errors raised while preparing the fthenb/1f1b programs: the explicit
`ValueError` of `_split_ops` naming the unclassified op role, the
`ValueError` of `Block.var` on an unknown name, Python's `IndexError` on
`names[0]` for an empty list, and the `TypeError` of
`None + offset` when a backward send exists but no optimize op does. -/
inductive PassError where
  | valueErrorOpRole (r : Role)
  | valueErrorVarNotInBlock (name : String)
  | indexError
  | typeError
deriving DecidableEq, Repr

/-- The transformation `_overlap_send_recv` applies to a single operator:
send/recv ops are retagged onto their own execution streams; everything
else is untouched. -/
def overlapOp (op : Op) : Op :=
  if op.type = "send_v2" then
    { op with
        dynamicShape := false
        useCalcStream := true
        executionStream := "send_stream_" ++ toString op.ringId
        streamPriority := 0 }
  else if op.type = "recv_v2" then
    { op with
        dynamicShape := false
        useCalcStream := true
        executionStream := "recv_stream"
        streamPriority := 0 }
  else op

/-- `_overlap_send_recv(program)`: retag every send/recv op of every block
in place; no operator is inserted or removed. -/
def _overlap_send_recv (program : Program) : Program :=
  { blocks := program.blocks.map
      (fun b => { b with ops := b.ops.map overlapOp }) }

/-- The `c_sync_calc_stream` op inserted before a send. -/
def syncCalcOp (varName : String) (role : Role) : Op :=
  { type := "c_sync_calc_stream", inputSlots := [("X", [varName])],
    outputSlots := [("Out", [varName])], role := role }

/-- The `c_sync_comm_stream` op inserted after a send (or before the first
optimize op). -/
def syncCommOp (varName : String) (role : Role) (ringId : Int)
    (pipelineFlag : Bool) : Op :=
  { type := "c_sync_comm_stream", inputSlots := [("X", [varName])],
    outputSlots := [("Out", [varName])], role := role, ringId := ringId,
    pipelineFlag := pipelineFlag }

/-- The `nop` op inserted for GC under the old executor. -/
def nopOp (varName : String) : Op :=
  { type := "nop", inputSlots := [("X", [varName])],
    outputSlots := [("Out", [varName])], role := Role.Backward }

/-- Python `list.insert(i, a)`: positions beyond the end clamp to an
append. -/
def pyInsert (l : List Op) (i : Nat) (a : Op) : List Op :=
  l.take i ++ a :: l.drop i

/-- The in-place attribute mutations of phase 1 of
`_insert_sync_for_fthenb_1f1b`: `dynamic_shape := False` on send/recv ops
and `use_calc_stream := False` on send ops.  The loop mutates each op when
it reaches it, but never reads these two attributes from any op, so
pre-applying the mutation to the whole list is equivalent. -/
def mutateSendRecv (op : Op) : Op :=
  let op := if op.type = "send_v2" ∨ op.type = "recv_v2" then
      { op with dynamicShape := false } else op
  if op.type = "send_v2" then { op with useCalcStream := false } else op

/-- Phase-1 loop of `_insert_sync_for_fthenb_1f1b` over one block: iterate
the snapshot of the original ops with a running `index` and insertion
`offset`, inserting `c_sync_calc_stream` before every send and
`c_sync_comm_stream` after it (forward sends, with `pipeline_flag`) or at
`first_optimize_index + offset` (backward sends; `TypeError` when there is
no optimize op). -/
def insertSyncPhase1Go (blockVars : List Var) (firstOpt : Option Nat) :
    List Op → Nat → Nat → List Op → Except PassError (List Op)
  | [], _, _, cur => .ok cur
  | op :: rest, index, offset, cur =>
    if op.type = "send_v2" then
      match op.input_arg_names[0]? with
      | none => .error .indexError
      | some varName =>
        if !blockVars.any (fun v => v.name = varName) then
          .error (.valueErrorVarNotInBlock varName)
        else
          let cur1 := pyInsert cur (index + offset) (syncCalcOp varName op.role)
          let offset1 := offset + 1
          if op.role = Role.Backward then
            match firstOpt with
            | none => .error .typeError
            | some fo =>
              let cur2 := pyInsert cur1 (fo + offset1)
                (syncCommOp varName Role.Optimize op.ringId false)
              insertSyncPhase1Go blockVars firstOpt rest (index + 1) offset1 cur2
          else
            let cur2 := pyInsert cur1 (index + offset1 + 1)
              (syncCommOp varName Role.Backward op.ringId
                (op.role == Role.Forward))
            let offset2 := if op.role = Role.Forward then offset1 + 1
                           else offset1
            insertSyncPhase1Go blockVars firstOpt rest (index + 1) offset2 cur2
    else insertSyncPhase1Go blockVars firstOpt rest (index + 1) offset cur

/-- Phase 1 of `_insert_sync_for_fthenb_1f1b` on one block. -/
def insertSyncPhase1 (block : Block) : Except PassError (List Op) :=
  insertSyncPhase1Go block.vars
    (block.ops.findIdx? (fun op => is_optimize_op op.role))
    block.ops 0 0 (block.ops.map mutateSendRecv)

/-- Phase-2 loop: before the first backward receive, remove every
`c_sync_comm_stream` op tagged `pipeline_flag` (the offset now counts
removals, hence is an `Int`), re-inserting a `nop` at the backward-receive
index when the old executor is in use. -/
def insertSyncPhase2Go (blockVars : List Var) (useNewExecutor : Bool)
    (bri : Nat) :
    List Op → Nat → Int → List Op → Except PassError (List Op)
  | [], _, _, cur => .ok cur
  | op :: rest, index, offset, cur =>
    if bri ≤ index then .ok cur
    else if op.type == "c_sync_comm_stream" && op.pipelineFlag then
      match op.output_arg_names[0]? with
      | none => .error .indexError
      | some varName =>
        if !blockVars.any (fun v => v.name = varName) then
          .error (.valueErrorVarNotInBlock varName)
        else
          let cur1 := cur.eraseIdx ((index : Int) + offset).toNat
          let offset1 := offset - 1
          let cur2 := if !useNewExecutor then pyInsert cur1 bri (nopOp varName)
                      else cur1
          insertSyncPhase2Go blockVars useNewExecutor bri rest (index + 1)
            offset1 cur2
    else insertSyncPhase2Go blockVars useNewExecutor bri rest (index + 1)
      offset cur

/-- `_insert_sync_for_fthenb_1f1b` on one block: phase 1, then locate the
first backward `recv_v2` and run phase 2 (skipped when there is none).
`use_new_executor()` is an external flag, passed as a parameter. -/
def insertSyncBlock (useNewExecutor : Bool) (block : Block) :
    Except PassError Block := do
  let ops1 ← insertSyncPhase1 block
  match ops1.findIdx?
      (fun op => op.type == "recv_v2" && is_backward_op op.role) with
  | none => .ok { block with ops := ops1 }
  | some bri => do
    let ops2 ← insertSyncPhase2Go block.vars useNewExecutor bri ops1 0 0 ops1
    .ok { block with ops := ops2 }

/-- `_insert_sync_for_fthenb_1f1b(program)`. -/
def _insert_sync_for_fthenb_1f1b (useNewExecutor : Bool) (program : Program) :
    Except PassError Program := do
  let blocks ← program.blocks.mapM (insertSyncBlock useNewExecutor)
  .ok { blocks := blocks }

/-! ## `_program_for_fthenb_and_1f1b` -/

/-- `_is_fetch_op(op)`. -/
def _is_fetch_op (op : Op) : Bool :=
  op.type == "fetch" || op.type == "fetch_v2"

/-- The accumulator of `_split_ops`: ops are appended to the role list they
classify into. -/
def _split_opsGo : List Op → List Op × List Op × List Op →
    Except PassError (List Op × List Op × List Op)
  | [], acc => .ok acc
  | op :: rest, (fwdOps, bwdOps, optOps) =>
    if _is_fetch_op op then _split_opsGo rest (fwdOps, bwdOps, optOps)
    else if is_forward_op op.role then
      _split_opsGo rest (fwdOps ++ [op], bwdOps, optOps)
    else if is_backward_op op.role then
      _split_opsGo rest (fwdOps, bwdOps ++ [op], optOps)
    else if is_optimize_op op.role then
      _split_opsGo rest (fwdOps, bwdOps, optOps ++ [op])
    else .error (.valueErrorOpRole op.role)

/-- `_split_ops(block)`: partition the block's non-fetch ops by role,
raising the `ValueError` that names the op role when one of them is not
Forward/Backward/Optimize.  (The Python body reads the enclosing loop's
`src_block` rather than its parameter; both are the same object at the one
call site, so the model takes the block directly.) -/
def _split_ops (srcBlock : Block) :
    Except PassError (List Op × List Op × List Op) :=
  _split_opsGo srcBlock.ops ([], [], [])

/-- `_add_ops_into_block`: re-materialize each op into the destination
block (block `dstBi` of `dstProg`). -/
def addOpsIntoBlock (srcProg : Program) (srcIdx : Nat) (dstProg : Program)
    (dstBi : Nat) (ops : List Op) : Program :=
  { blocks := dstProg.blocks.set dstBi
      (ops.foldl (fun blk op => _create_program srcProg srcIdx blk op)
        (dstProg.blocks.getD dstBi {})) }

/-- `prog._create_block(parent_idx=…)` followed by
`_set_forward_block_idx(…)`: append a fresh block carrying the source
block's parent and forward-block links. -/
def Program.createBlock (p : Program) (parentIdx fwdBlockIdx : Int) :
    Program :=
  { blocks := p.blocks ++
      [{ parentIdx := parentIdx, forwardBlockIdx := fwdBlockIdx }] }

/-- The mutable state of the block loop of `_program_for_fthenb_and_1f1b`:
the three programs under construction and the block of each that the
Python variables `fwd_block`/`bwd_block`/`opt_block` currently reference
(stale references persist across iterations that create no new block). -/
structure FState where
  fwdProg : Program := Program.empty
  bwdProg : Program := Program.empty
  optProg : Program := Program.empty
  fwdBi : Nat := 0
  bwdBi : Nat := 0
  optBi : Nat := 0
deriving Repr

/-- The fetch-op relocation at the end of each block iteration: copy the
fetch op into the first of `[fwd_block, bwd_block, opt_block]` that can
resolve its input variable. -/
def fetchStep (preProg : Program) (srcIdx : Nat) (st : FState) (fetchOp : Op) :
    Except PassError FState :=
  match fetchOp.input_arg_names[0]? with
  | none => .error .indexError
  | some inName =>
    if (findVarRecursive st.fwdProg st.fwdProg.blocks.length st.fwdBi
        inName).isSome then
      .ok { st with
              fwdProg := addOpsIntoBlock preProg srcIdx st.fwdProg st.fwdBi
                [fetchOp] }
    else if (findVarRecursive st.bwdProg st.bwdProg.blocks.length st.bwdBi
        inName).isSome then
      .ok { st with
              bwdProg := addOpsIntoBlock preProg srcIdx st.bwdProg st.bwdBi
                [fetchOp] }
    else if (findVarRecursive st.optProg st.optProg.blocks.length st.optBi
        inName).isSome then
      .ok { st with
              optProg := addOpsIntoBlock preProg srcIdx st.optProg st.optBi
                [fetchOp] }
    else .ok st

/-- One iteration of the block loop of `_program_for_fthenb_and_1f1b`:
split the source block's ops by role, add them to block 0 (for the global
block) or to freshly created blocks (only when non-empty, otherwise the
previous block reference stays), then relocate fetch ops. -/
def programForBlockStep (preProg : Program) (st : FState) (idx : Nat) :
    Except PassError FState := do
  let srcBlock := preProg.blocks.getD idx {}
  let (fwdOps, bwdOps, optOps) ← _split_ops srcBlock
  let st ←
    if idx = 0 then
      pure { st with
        fwdProg := addOpsIntoBlock preProg idx st.fwdProg 0 fwdOps,
        fwdBi := 0,
        bwdProg := addOpsIntoBlock preProg idx st.bwdProg 0 bwdOps,
        bwdBi := 0,
        optProg := addOpsIntoBlock preProg idx st.optProg 0 optOps,
        optBi := 0 }
    else
      let st := if fwdOps.isEmpty then st else
        let p1 := st.fwdProg.createBlock srcBlock.parentIdx
          srcBlock.forwardBlockIdx
        { st with
          fwdProg := addOpsIntoBlock preProg idx p1
            (p1.blocks.length - 1) fwdOps,
          fwdBi := p1.blocks.length - 1 }
      let st := if bwdOps.isEmpty then st else
        let p1 := st.bwdProg.createBlock srcBlock.parentIdx
          srcBlock.forwardBlockIdx
        { st with
          bwdProg := addOpsIntoBlock preProg idx p1
            (p1.blocks.length - 1) bwdOps,
          bwdBi := p1.blocks.length - 1 }
      let st := if optOps.isEmpty then st else
        let p1 := st.optProg.createBlock srcBlock.parentIdx
          srcBlock.forwardBlockIdx
        { st with
          optProg := addOpsIntoBlock preProg idx p1
            (p1.blocks.length - 1) optOps,
          optBi := p1.blocks.length - 1 }
      pure st
  (srcBlock.ops.filter _is_fetch_op).foldlM (fetchStep preProg idx) st

/-- Modelled from the spec: the spec does not describe
`Program._roll_to_global_block` (framework code outside the excerpt); it is
modelled as leaving the program unchanged. -/
def Program.rollToGlobalBlock (p : Program) : Program := p

/-- `_program_for_fthenb_and_1f1b(program, enable_send_recv_overlap)`:
preprocess with the overlap or explicit-barrier strategy, split every block
by role into the forward/backward/optimize programs, and return them in
that fixed order. -/
def _program_for_fthenb_and_1f1b (useNewExecutor : Bool) (program : Program)
    (enableSendRecvOverlap : Bool := false) :
    Except PassError (List Program) := do
  let preProg ←
    if enableSendRecvOverlap then pure (_overlap_send_recv program)
    else _insert_sync_for_fthenb_1f1b useNewExecutor program
  let st ← (List.range preProg.blocks.length).foldlM
    (programForBlockStep preProg) {}
  .ok [st.fwdProg.rollToGlobalBlock, st.bwdProg.rollToGlobalBlock,
       st.optProg.rollToGlobalBlock]

/-! ## Theorems -/

/-- Membership after folding `insert` over a list of names. -/
theorem mem_foldl_insert (l : List String) (S : Finset String) (name : String) :
    name ∈ l.foldl (fun acc n => insert n acc) S ↔ name ∈ S ∨ name ∈ l := by
  induction l generalizing S with
  | nil => simp
  | cons x xs ih =>
    rw [List.foldl_cons, ih]
    simp only [Finset.mem_insert, List.mem_cons]
    tauto

/-- Membership in the slot fold of `OpInOutInfo.build_info`. -/
theorem mem_foldl_slots (slots : List (String × List String))
    (nnb : Finset String) (S : Finset String) (name : String) :
    name ∈ slots.foldl
        (fun acc slot =>
          if slot.1 ∈ nnb then acc
          else slot.2.foldl (fun acc n => insert n acc) acc) S ↔
      name ∈ S ∨ ∃ slot ∈ slots, slot.1 ∉ nnb ∧ name ∈ slot.2 := by
  induction slots generalizing S with
  | nil => simp
  | cons sl rest ih =>
    rw [List.foldl_cons, ih]
    by_cases h : sl.1 ∈ nnb
    · simp only [if_pos h, List.mem_cons]
      constructor
      · rintro (hS | ⟨s, hs, h1, h2⟩)
        · exact Or.inl hS
        · exact Or.inr ⟨s, Or.inr hs, h1, h2⟩
      · rintro (hS | ⟨s, rfl | hs, h1, h2⟩)
        · exact Or.inl hS
        · exact absurd h h1
        · exact Or.inr ⟨s, hs, h1, h2⟩
    · rw [if_neg h, mem_foldl_insert]
      simp only [List.mem_cons]
      constructor
      · rintro ((hS | hsl) | ⟨s, hs, h1, h2⟩)
        · exact Or.inl hS
        · exact Or.inr ⟨sl, Or.inl rfl, h, hsl⟩
        · exact Or.inr ⟨s, Or.inr hs, h1, h2⟩
      · rintro (hS | ⟨s, rfl | hs, h1, h2⟩)
        · exact Or.inl (Or.inl hS)
        · exact Or.inl (Or.inr h2)
        · exact Or.inr ⟨s, hs, h1, h2⟩

/-- C8: after `build_info` has been run on an operator, `is_needed(name)`
returns true exactly when the operator's no-need-buffer slot set is empty
(everything treated as needed) or the name occurs in some input/output slot
of the operator that is not marked no-need-buffer. -/
theorem is_needed_characterization (registry : Op → Finset String) (op : Op)
    (name : String) :
    (OpInOutInfo.build_info registry op).is_needed name = true ↔
      (registry op = ∅ ∨
        ∃ slot ∈ op.inputSlots ++ op.outputSlots,
          slot.1 ∉ registry op ∧ name ∈ slot.2) := by
  unfold OpInOutInfo.build_info OpInOutInfo.is_needed
  by_cases h : registry op = ∅
  · simp [h]
  · rw [if_neg h]
    simp only [mem_foldl_slots, h, Bool.or_eq_true, decide_eq_true_eq]
    simp only [List.mem_append, Prod.exists, Finset.not_mem_empty, false_or]

/-- C9: `_overlap_send_recv` retags every `send_v2` op onto the stream
`"send_stream_" ++ ring_id` and every `recv_v2` op onto the shared
`"recv_stream"`, with `use_calc_stream := true` and
`dynamic_shape := false`, leaves every other op untouched, and inserts no
synchronization operator: each block keeps its operator count, and the op
at each position is the (possibly retagged) op that was there before. -/
theorem overlap_send_recv_characterization (p : Program) :
    (_overlap_send_recv p).blocks.length = p.blocks.length ∧
    ∀ (i : Nat) (b : Block), p.blocks[i]? = some b →
      ∃ b2 : Block, (_overlap_send_recv p).blocks[i]? = some b2 ∧
        b2.ops.length = b.ops.length ∧ b2.vars = b.vars ∧
        ∀ (j : Nat) (op : Op), b.ops[j]? = some op →
          ∃ op2 : Op, b2.ops[j]? = some op2 ∧
            (op.type = "send_v2" →
              op2 = { op with
                        dynamicShape := false
                        useCalcStream := true
                        executionStream := "send_stream_" ++ toString op.ringId
                        streamPriority := 0 }) ∧
            (op.type = "recv_v2" →
              op2 = { op with
                        dynamicShape := false
                        useCalcStream := true
                        executionStream := "recv_stream"
                        streamPriority := 0 }) ∧
            (op.type ≠ "send_v2" → op.type ≠ "recv_v2" → op2 = op) := by
  constructor
  · simp [_overlap_send_recv]
  · intro i b hb
    refine ⟨{ b with ops := b.ops.map overlapOp }, ?_, by simp, rfl, ?_⟩
    · simp [_overlap_send_recv, List.getElem?_map, hb]
    · intro j op hop
      refine ⟨overlapOp op, by simp [List.getElem?_map, hop], ?_, ?_, ?_⟩
      · intro h; simp [overlapOp, h]
      · intro h; simp [overlapOp, h]
      · intro h1 h2; simp [overlapOp, h1, h2]

/-- The concrete program used to witness C9: one block with a send on ring
3, a receive, and a compute op. -/
def overlapExampleProgram : Program :=
  { blocks := [{ ops := [{ type := "send_v2", ringId := 3 },
                         { type := "recv_v2" }, { type := "mul" }] }] }

/-- The block of `overlapExampleProgram`. -/
def overlapExampleBlock : Block :=
  { ops := [{ type := "send_v2", ringId := 3 },
            { type := "recv_v2" }, { type := "mul" }] }

/-- Witness for C9 at a concrete program. -/
theorem overlap_send_recv_witness :
    (_overlap_send_recv overlapExampleProgram).blocks.length = 1 ∧
    ∃ b2, (_overlap_send_recv overlapExampleProgram).blocks[0]? = some b2 ∧
      b2.ops.length = 3 ∧
      ∃ op2, b2.ops[0]? = some op2 ∧
        op2.executionStream = "send_stream_3" ∧ op2.useCalcStream = true ∧
        op2.dynamicShape = false := by
  have h := overlap_send_recv_characterization overlapExampleProgram
  refine ⟨h.1, ?_⟩
  obtain ⟨b2, hb2, hlen, _, hops⟩ :=
    h.2 0 overlapExampleBlock (by decide)
  obtain ⟨op2, hop2, hsend, _, _⟩ :=
    hops 0 { type := "send_v2", ringId := 3 } (by decide)
  refine ⟨b2, hb2, by rw [hlen]; rfl, op2, hop2, ?_⟩
  rw [hsend (by decide)]
  exact ⟨rfl, rfl, rfl⟩

/-! ### C7: re-materializer idempotence -/

/-- Registering a variable never touches the op list. -/
theorem createVar_ops (b : Block) (v : Var) : (b.createVar v).ops = b.ops := by
  unfold Block.createVar
  split <;> rfl

/-- A successful direct lookup returns a declaration with the looked-up
name. -/
theorem find?_var_name (l : List Var) (n : String) (v : Var)
    (h : l.find? (fun w => w.name = n) = some v) : v.name = n := by
  have := List.find?_some h
  simpa using this

/-- A successful recursive lookup returns a declaration with the looked-up
name. -/
theorem findVarRecursive_name (p : Program) :
    ∀ (fuel bi : Nat) (n : String) (v : Var),
      findVarRecursive p fuel bi n = some v → v.name = n := by
  intro fuel
  induction fuel with
  | zero => intro bi n v h; simp [findVarRecursive] at h
  | succ k ih =>
    intro bi n v h
    unfold findVarRecursive at h
    rcases hb : p.blocks[bi]? with _ | b
    · rw [hb] at h; exact absurd h (by simp)
    · rw [hb] at h
      dsimp only at h
      rcases hf : b.vars.find? (fun w => w.name = n) with _ | w
      · rw [hf] at h
        dsimp only at h
        split at h
        · exact absurd h (by simp)
        · exact ih _ _ _ h
      · rw [hf] at h
        dsimp only at h
        simp only [Option.some.injEq] at h
        subst h
        exact find?_var_name _ _ _ hf

/-- Dispatch lemma for `_create_var`: it is either the identity (no source
declaration found) or a single `createVar` of a declaration carrying the
looked-up name. -/
theorem create_var_eq (sp : Program) (si : Nat) (d : Block) (n : String)
    (fc : Bool) :
    (_create_var sp si d n fc = d ∧ varLookup sp si n fc = none) ∨
    ∃ v, varLookup sp si n fc = some v ∧
      _create_var sp si d n fc = d.createVar v ∧ v.name = n := by
  rcases h : varLookup sp si n fc with _ | v
  · left
    refine ⟨?_, rfl⟩
    unfold _create_var
    rw [h]
  · right
    refine ⟨v, rfl, ?_, ?_⟩
    · unfold _create_var _create_param _create_inter
      rw [h]
      dsimp only
      split
      · rfl
      · split <;> rfl
    · unfold varLookup at h
      split at h
      · exact find?_var_name _ _ _ h
      · exact findVarRecursive_name sp _ _ _ _ h

/-- `_create_var` never touches the op list. -/
theorem create_var_ops (sp : Program) (si : Nat) (d : Block) (n : String)
    (fc : Bool) : (_create_var sp si d n fc).ops = d.ops := by
  rcases create_var_eq sp si d n fc with ⟨heq, _⟩ | ⟨v, _, heq, _⟩
  · rw [heq]
  · rw [heq]; exact createVar_ops _ _

/-- After registering `v`, a declaration named `v.name` is present. -/
theorem createVar_has (b : Block) (v : Var) :
    (b.createVar v).has_var v.name = true := by
  unfold Block.createVar Block.has_var
  split
  · assumption
  · simp

/-- Registering a variable preserves existing declarations. -/
theorem createVar_mono (b : Block) (v : Var) (m : String)
    (h : b.has_var m = true) : (b.createVar v).has_var m = true := by
  unfold Block.createVar
  split
  · exact h
  · unfold Block.has_var at h ⊢
    simp only [List.any_append, h, Bool.true_or]

/-- Registering a variable keeps declaration names duplicate-free. -/
theorem createVar_nodup (b : Block) (v : Var)
    (h : (b.vars.map Var.name).Nodup) :
    ((b.createVar v).vars.map Var.name).Nodup := by
  unfold Block.createVar
  split
  · exact h
  · rename_i hany
    simp only [List.map_append, List.map_cons, List.map_nil]
    rw [List.nodup_append]
    refine ⟨h, List.nodup_singleton _, ?_⟩
    intro a ha hb
    simp only [List.mem_singleton] at hb
    subst hb
    simp only [List.mem_map] at ha
    obtain ⟨w, hw, hwn⟩ := ha
    exact absurd (List.any_eq_true.mpr ⟨w, hw, by simp [hwn]⟩) hany

/-- `_create_var` preserves existing declarations. -/
theorem create_var_mono (sp : Program) (si : Nat) (d : Block) (n : String)
    (fc : Bool) (m : String) (h : d.has_var m = true) :
    (_create_var sp si d n fc).has_var m = true := by
  rcases create_var_eq sp si d n fc with ⟨heq, _⟩ | ⟨v, _, heq, _⟩
  · rw [heq]; exact h
  · rw [heq]; exact createVar_mono _ _ _ h

/-- `_create_var` keeps declaration names duplicate-free. -/
theorem create_var_nodup (sp : Program) (si : Nat) (d : Block) (n : String)
    (fc : Bool) (h : (d.vars.map Var.name).Nodup) :
    ((_create_var sp si d n fc).vars.map Var.name).Nodup := by
  rcases create_var_eq sp si d n fc with ⟨heq, _⟩ | ⟨v, _, heq, _⟩
  · rw [heq]; exact h
  · rw [heq]; exact createVar_nodup _ _ h

/-- A block that declares a name resolves it recursively (with the standard
fuel). -/
theorem findVarRecursive_of_has_var (p : Program) (si : Nat) (n : String)
    (h : (p.blocks.getD si {}).has_var n = true) :
    (findVarRecursive p p.blocks.length si n).isSome = true := by
  have hsi : si < p.blocks.length := by
    by_contra hge
    rw [List.getD_eq_default _ _ (le_of_not_lt hge)] at h
    simp [Block.has_var] at h
  rcases hlen : p.blocks.length with _ | k
  · omega
  · unfold findVarRecursive
    have hb : p.blocks[si]? = some (p.blocks.getD si {}) := by
      rw [List.getD_eq_getElem?_getD]
      rw [List.getElem?_eq_getElem hsi]
      rfl
    rw [hb]
    unfold Block.has_var at h
    obtain ⟨v, hv, hvn⟩ := List.any_eq_true.mp h
    rcases hf : (p.blocks.getD si {}).vars.find? (fun w => w.name = n) with _ | w
    · exact absurd (List.find?_eq_none.mp hf v hv) (by simp [hvn])
    · rw [List.getD_eq_getElem?_getD] at hf
      simp [hf]

/-- When the `_create_program` guard holds, the lookup succeeds. -/
theorem varLookup_isSome_of_guard (sp : Program) (si : Nat) (fc : Bool)
    (n : String) (h : createGuard sp si fc n = true) :
    (varLookup sp si n fc).isSome = true := by
  unfold createGuard at h
  unfold varLookup
  rcases fc with _ | _
  · simp only [Bool.false_and, Bool.or_false] at h
    rw [if_pos (by simp)]
    unfold Block.has_var at h
    obtain ⟨v, hv, hvn⟩ := List.any_eq_true.mp h
    rcases hf : (sp.blocks.getD si {}).vars.find? (fun w => w.name = n)
      with _ | w
    · exact absurd (List.find?_eq_none.mp hf v hv) (by simp [hvn])
    · rw [hf]
      rfl
  · rw [if_neg (by simp)]
    rcases Bool.or_eq_true_iff.mp h with h1 | h2
    · exact findVarRecursive_of_has_var sp si n h1
    · exact (Bool.and_eq_true_iff.mp h2).2

/-- When its guard holds, `createVarStep` results in the name being
declared. -/
theorem createVarStep_creates (sp : Program) (si : Nat) (fc : Bool)
    (d : Block) (n : String) (h : createGuard sp si fc n = true) :
    (createVarStep sp si fc d n).has_var n = true := by
  unfold createVarStep
  rw [if_pos h]
  have hsome := varLookup_isSome_of_guard sp si fc n h
  rcases create_var_eq sp si d n fc with ⟨_, hnone⟩ | ⟨v, _, heq, hname⟩
  · rw [hnone] at hsome; simp at hsome
  · rw [heq, ← hname]
    exact createVar_has _ _

/-- A declared name short-circuits `_create_var` (no duplicate
declaration). -/
theorem create_var_of_has_var (sp : Program) (si : Nat) (d : Block)
    (n : String) (fc : Bool) (h : d.has_var n = true) :
    _create_var sp si d n fc = d := by
  rcases create_var_eq sp si d n fc with ⟨heq, _⟩ | ⟨v, _, heq, hname⟩
  · exact heq
  · rw [heq]
    unfold Block.createVar
    rw [if_pos]
    unfold Block.has_var at h
    rw [hname]
    exact h

/-- The variable-creation fold never touches the op list. -/
theorem foldCreate_ops (sp : Program) (si : Nat) (fc : Bool) :
    ∀ (names : List String) (d : Block),
      (names.foldl (createVarStep sp si fc) d).ops = d.ops := by
  intro names
  induction names with
  | nil => intro d; rfl
  | cons n rest ih =>
    intro d
    rw [List.foldl_cons, ih]
    unfold createVarStep
    split
    · exact create_var_ops _ _ _ _ _
    · rfl

/-- The variable-creation fold preserves existing declarations. -/
theorem foldCreate_mono (sp : Program) (si : Nat) (fc : Bool) :
    ∀ (names : List String) (d : Block) (m : String),
      d.has_var m = true →
      (names.foldl (createVarStep sp si fc) d).has_var m = true := by
  intro names
  induction names with
  | nil => intro d m h; exact h
  | cons n rest ih =>
    intro d m h
    rw [List.foldl_cons]
    refine ih _ _ ?_
    unfold createVarStep
    split
    · exact create_var_mono _ _ _ _ _ _ h
    · exact h

/-- The variable-creation fold declares every guarded name it processes. -/
theorem foldCreate_creates (sp : Program) (si : Nat) (fc : Bool) :
    ∀ (names : List String) (d : Block) (n : String),
      n ∈ names → createGuard sp si fc n = true →
      (names.foldl (createVarStep sp si fc) d).has_var n = true := by
  intro names
  induction names with
  | nil => intro d n h; exact absurd h (List.not_mem_nil n)
  | cons m rest ih =>
    intro d n hmem hg
    rw [List.foldl_cons]
    rcases List.mem_cons.mp hmem with rfl | htail
    · exact foldCreate_mono sp si fc rest _ n
        (createVarStep_creates sp si fc d n hg)
    · exact ih _ _ htail hg

/-- The variable-creation fold is the identity when every guarded name it
processes is already declared. -/
theorem foldCreate_id (sp : Program) (si : Nat) (fc : Bool) :
    ∀ (names : List String) (d : Block),
      (∀ n ∈ names, createGuard sp si fc n = true → d.has_var n = true) →
      names.foldl (createVarStep sp si fc) d = d := by
  intro names
  induction names with
  | nil => intro d _; rfl
  | cons n rest ih =>
    intro d h
    rw [List.foldl_cons]
    have hstep : createVarStep sp si fc d n = d := by
      unfold createVarStep
      split
      · exact create_var_of_has_var sp si d n fc
          (h n (List.mem_cons_self n rest) (by assumption))
      · rfl
    rw [hstep]
    exact ih d (fun m hm hg => h m (List.mem_cons_of_mem n hm) hg)

/-- The variable-creation fold keeps declaration names duplicate-free. -/
theorem foldCreate_nodup (sp : Program) (si : Nat) (fc : Bool) :
    ∀ (names : List String) (d : Block),
      (d.vars.map Var.name).Nodup →
      ((names.foldl (createVarStep sp si fc) d).vars.map Var.name).Nodup := by
  intro names
  induction names with
  | nil => intro d h; exact h
  | cons n rest ih =>
    intro d h
    rw [List.foldl_cons]
    refine ih _ ?_
    unfold createVarStep
    split
    · exact create_var_nodup _ _ _ _ _ h
    · exact h

/-- `Block.has_var` only reads the declaration list. -/
theorem has_var_ops_irrelevant (b : Block) (ops2 : List Op) (n : String) :
    (Block.mk ops2 b.vars b.parentIdx b.forwardBlockIdx).has_var n
      = b.has_var n := rfl

/-- Unfolding equation for `_create_program`. -/
theorem create_program_def (sp : Program) (si : Nat) (d : Block) (op : Op)
    (fc : Bool) :
    _create_program sp si d op fc =
      op.output_arg_names.foldl (createVarStep sp si fc)
        (op.input_arg_names.foldl (createVarStep sp si fc)
          { d with ops := d.ops ++ [op] }) := rfl

/-- C7 (amended): invoking `_create_program` twice with the same operator
and destination appends two copies of the operator, while the second
invocation leaves the declaration list exactly as the first left it; no
duplicate declarations are introduced (declaration names stay
duplicate-free whenever they start out duplicate-free). -/
theorem create_program_twice (sp : Program) (si : Nat) (dst : Block)
    (op : Op) (fc : Bool) :
    (_create_program sp si (_create_program sp si dst op fc) op fc).ops
        = dst.ops ++ [op, op] ∧
    (_create_program sp si (_create_program sp si dst op fc) op fc).vars
        = (_create_program sp si dst op fc).vars ∧
    ((dst.vars.map Var.name).Nodup →
      ((_create_program sp si (_create_program sp si dst op fc) op fc).vars.map
          Var.name).Nodup) := by
  have hd1has : ∀ n, (n ∈ op.input_arg_names ∨ n ∈ op.output_arg_names) →
      createGuard sp si fc n = true →
      (_create_program sp si dst op fc).has_var n = true := by
    intro n hn hg
    rw [create_program_def]
    rcases hn with hin | hout
    · exact foldCreate_mono sp si fc _ _ n
        (foldCreate_creates sp si fc _ _ n hin hg)
    · exact foldCreate_creates sp si fc _ _ n hout hg
  have hskip : _create_program sp si (_create_program sp si dst op fc) op fc
      = { _create_program sp si dst op fc with
            ops := (_create_program sp si dst op fc).ops ++ [op] } := by
    rw [create_program_def
      sp si (_create_program sp si dst op fc) op fc]
    rw [foldCreate_id sp si fc op.input_arg_names
      { _create_program sp si dst op fc with
          ops := (_create_program sp si dst op fc).ops ++ [op] }
      (fun n hn hg => hd1has n (Or.inl hn) hg)]
    exact foldCreate_id sp si fc op.output_arg_names
      { _create_program sp si dst op fc with
          ops := (_create_program sp si dst op fc).ops ++ [op] }
      (fun n hn hg => hd1has n (Or.inr hn) hg)
  have hops1 : (_create_program sp si dst op fc).ops = dst.ops ++ [op] := by
    rw [create_program_def, foldCreate_ops, foldCreate_ops]
  refine ⟨?_, ?_, ?_⟩
  · rw [hskip]
    show (_create_program sp si dst op fc).ops ++ [op] = dst.ops ++ [op, op]
    rw [hops1]
    simp
  · rw [hskip]
  · intro hnd
    rw [hskip]
    show ((_create_program sp si dst op fc).vars.map Var.name).Nodup
    rw [create_program_def]
    exact foldCreate_nodup sp si fc _ _ (foldCreate_nodup sp si fc _ _ hnd)

/-- Concrete source program for the C7 counterexample/witness: one block
declaring `v`. -/
def rematSrcProgram : Program :=
  { blocks := [{ vars := [{ name := "v" }] }] }

/-- Concrete operator for the C7 counterexample/witness: reads `v`. -/
def rematOp : Op := { type := "f", inputSlots := [("X", ["v"])] }

/-- C7 counterexample: re-invoking `_create_program` on the same operator
and destination block leaves TWO copies of the operator in the destination
(the claim says exactly one); the variable declarations, in contrast, are
not duplicated. -/
theorem create_program_twice_counterexample :
    (_create_program rematSrcProgram 0
        (_create_program rematSrcProgram 0 {} rematOp) rematOp).ops
      = [rematOp, rematOp] ∧
    ¬ ((_create_program rematSrcProgram 0
        (_create_program rematSrcProgram 0 {} rematOp) rematOp).ops.length
        = 1) ∧
    (_create_program rematSrcProgram 0
        (_create_program rematSrcProgram 0 {} rematOp) rematOp).vars.map
        Var.name = ["v"] := by decide

/-- Witness for the amended C7 theorem at a concrete input. -/
theorem create_program_twice_witness :
    ((Block.mk [] [] (-1) (-1)).vars.map Var.name).Nodup ∧
    ((_create_program rematSrcProgram 0
        (_create_program rematSrcProgram 0 {} rematOp false) rematOp
        false).vars.map Var.name).Nodup :=
  ⟨by decide,
   (create_program_twice rematSrcProgram 0 {} rematOp false).2.2 (by decide)⟩

/-! ### C5, C6, C3, C4: the graph slicer -/

/-- Success conditions and result of `prune_program`. -/
theorem prune_program_ok_elim (p : Program) (s e : Int) (q : Program)
    (h : prune_program p s e = .ok q) :
    0 ≤ resolveIdx s (p.global_block.ops.length : Int) ∧
    resolveIdx s (p.global_block.ops.length : Int) <
      (p.global_block.ops.length : Int) ∧
    0 ≤ resolveIdx e (p.global_block.ops.length : Int) ∧
    resolveIdx e (p.global_block.ops.length : Int) ≤
      (p.global_block.ops.length : Int) ∧
    resolveIdx s (p.global_block.ops.length : Int) <
      resolveIdx e (p.global_block.ops.length : Int) ∧
    q = { blocks := { p.global_block with
            ops := (p.global_block.ops.take
                (resolveIdx e (p.global_block.ops.length : Int)).toNat).drop
              (resolveIdx s (p.global_block.ops.length : Int)).toNat,
            vars := p.global_block.vars.filter (fun v =>
              (((p.global_block.ops.take
                    (resolveIdx e (p.global_block.ops.length : Int)).toNat).drop
                  (resolveIdx s (p.global_block.ops.length : Int)).toNat).flatMap
                (fun op => op.input_arg_names ++ op.output_arg_names)).contains
                v.name) }
          :: p.blocks.tail } := by
  unfold prune_program at h
  dsimp only at h
  split at h
  · exact absurd h (by simp)
  · split at h
    · exact absurd h (by simp)
    · split at h
      · exact absurd h (by simp)
      · rename_i h1 h2 h3
        rw [not_not] at h1 h2
        rw [not_lt] at h3
        simp only [Except.ok.injEq] at h
        exact ⟨h1.1, h1.2, h2.1, h2.2, by omega, h.symm⟩

/-- Constructor form: `prune_program` succeeds on resolved in-range
indices. -/
theorem prune_program_ok_intro (p : Program) (s e : Int)
    (h1 : 0 ≤ resolveIdx s (p.global_block.ops.length : Int))
    (h2 : resolveIdx s (p.global_block.ops.length : Int) <
      (p.global_block.ops.length : Int))
    (h3 : 0 ≤ resolveIdx e (p.global_block.ops.length : Int))
    (h4 : resolveIdx e (p.global_block.ops.length : Int) ≤
      (p.global_block.ops.length : Int))
    (h5 : resolveIdx s (p.global_block.ops.length : Int) <
      resolveIdx e (p.global_block.ops.length : Int)) :
    prune_program p s e = .ok
      { blocks := { p.global_block with
          ops := (p.global_block.ops.take
              (resolveIdx e (p.global_block.ops.length : Int)).toNat).drop
            (resolveIdx s (p.global_block.ops.length : Int)).toNat,
          vars := p.global_block.vars.filter (fun v =>
            (((p.global_block.ops.take
                  (resolveIdx e (p.global_block.ops.length : Int)).toNat).drop
                (resolveIdx s (p.global_block.ops.length : Int)).toNat).flatMap
              (fun op => op.input_arg_names ++ op.output_arg_names)).contains
              v.name) }
        :: p.blocks.tail } := by
  unfold prune_program
  dsimp only
  rw [if_neg (not_not_intro ⟨h1, h2⟩), if_neg (not_not_intro ⟨h3, h4⟩),
    if_neg (not_not_intro h5)]

/-- The global block of a program whose block list starts with `b`. -/
theorem global_block_cons (b : Block) (rest : List Block) :
    (Program.mk (b :: rest)).global_block = b := rfl

/-- C5: on every valid resolved index pair, `prune_program` succeeds; the
result's retained operators are exactly the source slice (hence appear in
the source's relative order), and its declared variables are exactly the
names referenced by the retained operators (under the data-model invariant
that every referenced name is declared). -/
theorem prune_program_characterization (p : Program) (s e : Int)
    (hwf : ∀ op ∈ p.global_block.ops,
      ∀ n ∈ op.input_arg_names ++ op.output_arg_names,
        ∃ v ∈ p.global_block.vars, v.name = n)
    (h1 : 0 ≤ resolveIdx s (p.global_block.ops.length : Int))
    (h2 : resolveIdx s (p.global_block.ops.length : Int) <
      (p.global_block.ops.length : Int))
    (h3 : 0 ≤ resolveIdx e (p.global_block.ops.length : Int))
    (h4 : resolveIdx e (p.global_block.ops.length : Int) ≤
      (p.global_block.ops.length : Int))
    (h5 : resolveIdx s (p.global_block.ops.length : Int) <
      resolveIdx e (p.global_block.ops.length : Int)) :
    ∃ q, prune_program p s e = .ok q ∧
      q.global_block.ops = (p.global_block.ops.take
          (resolveIdx e (p.global_block.ops.length : Int)).toNat).drop
        (resolveIdx s (p.global_block.ops.length : Int)).toNat ∧
      q.global_block.ops.Sublist p.global_block.ops ∧
      ∀ n, (∃ v ∈ q.global_block.vars, v.name = n) ↔
        ∃ op ∈ q.global_block.ops,
          n ∈ op.input_arg_names ++ op.output_arg_names := by
  refine ⟨_, prune_program_ok_intro p s e h1 h2 h3 h4 h5, ?_, ?_, ?_⟩
  · rw [global_block_cons]
  · rw [global_block_cons]
    exact ((p.global_block.ops.take _).drop_sublist _).trans
      (p.global_block.ops.take_sublist _)
  · intro n
    rw [global_block_cons]
    constructor
    · rintro ⟨v, hv, rfl⟩
      rw [List.mem_filter] at hv
      have := hv.2
      rw [List.contains_iff_exists_mem_beq] at this
      obtain ⟨m, hm, hbeq⟩ := this
      rw [List.mem_flatMap] at hm
      obtain ⟨op, hop, hmem⟩ := hm
      have : v.name = m := by simpa using hbeq
      exact ⟨op, hop, this ▸ hmem⟩
    · rintro ⟨op, hop, hmem⟩
      have hopsrc : op ∈ p.global_block.ops :=
        (((p.global_block.ops.take _).drop_sublist _).trans
          (p.global_block.ops.take_sublist _)).mem hop
      obtain ⟨v, hv, hvn⟩ := hwf op hopsrc n hmem
      refine ⟨v, ?_, hvn⟩
      rw [List.mem_filter]
      refine ⟨hv, ?_⟩
      rw [List.contains_iff_exists_mem_beq]
      exact ⟨n, List.mem_flatMap.mpr ⟨op, hop, hmem⟩, by simp [hvn]⟩

/-- Concrete program for the C5 witness: two ops over variables `a`, `b`,
`c`, with a negative index pair to exercise resolution. -/
def pruneExampleProgram : Program :=
  { blocks := [{ ops := [{ type := "f", inputSlots := [("X", ["a"])],
                           outputSlots := [("Out", ["b"])] },
                         { type := "g", inputSlots := [("X", ["b"])],
                           outputSlots := [("Out", ["c"])] }],
                 vars := [{ name := "a" }, { name := "b" },
                          { name := "c" }] }] }

/-- Witness for C5 at a concrete input (indices `-2`, `-1` resolve to
`0`, `1`). -/
theorem prune_program_witness :
    ∃ q, prune_program pruneExampleProgram (-2) (-1) = .ok q ∧
      q.global_block.ops = (pruneExampleProgram.global_block.ops.take
          (resolveIdx (-1) (pruneExampleProgram.global_block.ops.length : Int)).toNat).drop
        (resolveIdx (-2) (pruneExampleProgram.global_block.ops.length : Int)).toNat ∧
      q.global_block.ops.Sublist pruneExampleProgram.global_block.ops ∧
      ∀ n, (∃ v ∈ q.global_block.vars, v.name = n) ↔
        ∃ op ∈ q.global_block.ops,
          n ∈ op.input_arg_names ++ op.output_arg_names :=
  prune_program_characterization pruneExampleProgram (-2) (-1)
    (by decide) (by decide) (by decide) (by decide) (by decide) (by decide)

/-- The source's strictly-sorted loop check agrees with `List.Chain'`. -/
theorem strictlyIncreasing_iff_chain : ∀ l : List Int,
    strictlyIncreasing l = true ↔ List.Chain' (· < ·) l
  | [] => by simp [strictlyIncreasing]
  | [a] => by simp [strictlyIncreasing]
  | a :: b :: rest => by
    rw [List.chain'_cons, ← strictlyIncreasing_iff_chain (b :: rest)]
    simp [strictlyIncreasing]

/-- Boundary normalization always starts at `0`. -/
theorem normalize_head (B : List Int) (n : Int) :
    (normalize_op_indices B n).head? = some 0 := by
  unfold normalize_op_indices
  dsimp only
  by_cases h : (B.map (fun idx => resolveIdx idx n)).head? = some 0
  · rw [if_neg (not_not_intro h)]
    rcases hB : B.map (fun idx => resolveIdx idx n) with _ | ⟨x, rest⟩
    · rw [hB] at h; simp at h
    · rw [hB] at h
      simp only [List.head?_cons, Option.some.injEq] at h
      subst h
      split <;> simp
  · rw [if_pos h]
    split <;> simp

/-- Boundary normalization always ends at the op count. -/
theorem normalize_last (B : List Int) (n : Int) :
    (normalize_op_indices B n).getLast? = some n := by
  unfold normalize_op_indices
  dsimp only
  by_cases h : ((if (B.map (fun idx => resolveIdx idx n)).head? ≠ some 0 then
      0 :: B.map (fun idx => resolveIdx idx n)
    else B.map (fun idx => resolveIdx idx n)).getLast? = some n)
  · rw [if_neg (not_not_intro h)]
    exact h
  · rw [if_pos h]
    exact List.getLast?_concat _

/-- Along a strictly increasing chain the head is at most the last
element. -/
theorem chain_head_le_last : ∀ (l : List Int) (a L : Int),
    List.Chain' (· < ·) l → l.head? = some a → l.getLast? = some L → a ≤ L
  | [], a, L => by simp
  | [x], a, L => by
    intro _ ha hL
    simp only [List.head?_cons, Option.some.injEq] at ha
    simp only [List.getLast?_singleton, Option.some.injEq] at hL
    omega
  | x :: y :: rest, a, L => by
    intro hch ha hL
    rw [List.chain'_cons] at hch
    simp only [List.head?_cons, Option.some.injEq] at ha
    subst ha
    have hylast : (y :: rest).getLast? = some L := by
      rw [List.getLast?_cons_cons] at hL
      exact hL
    have := chain_head_le_last (y :: rest) y L hch.2 (by simp) hylast
    omega

/-- Along a strictly increasing boundary chain starting at a non-negative
head and ending at the op count, every consecutive `prune_program`
succeeds. -/
theorem mapM_prune_ok (p : Program) : ∀ (l : List Int) (a : Int),
    List.Chain' (· < ·) l → l.head? = some a → 0 ≤ a →
    l.getLast? = some (p.global_block.ops.length : Int) →
    ∃ progs, (consecutivePairs l).mapM
      (fun ab => prune_program p ab.1 ab.2) = .ok progs
  | [], a => by simp
  | [x], a => by
    intro _ _ _ _
    exact ⟨[], rfl⟩
  | x :: y :: rest, a => by
    intro hch ha ha0 hL
    rw [List.chain'_cons] at hch
    simp only [List.head?_cons, Option.some.injEq] at ha
    subst ha
    have hylast : (y :: rest).getLast? = some (p.global_block.ops.length : Int) := by
      rw [List.getLast?_cons_cons] at hL
      exact hL
    have hy0 : 0 ≤ y := by have := hch.1; omega
    obtain ⟨progs, hprogs⟩ := mapM_prune_ok p (y :: rest) y hch.2 (by simp)
      hy0 hylast
    have hyN : y ≤ (p.global_block.ops.length : Int) :=
      chain_head_le_last (y :: rest) y _ hch.2 (by simp) hylast
    have hrx : resolveIdx x (p.global_block.ops.length : Int) = x := by
      unfold resolveIdx
      rw [if_neg (by omega)]
    have hry : resolveIdx y (p.global_block.ops.length : Int) = y := by
      unfold resolveIdx
      rw [if_neg (by omega)]
    have hxok := prune_program_ok_intro p x y
      (by rw [hrx]; omega) (by rw [hrx]; have := hch.1; omega)
      (by rw [hry]; omega) (by rw [hry]; omega)
      (by rw [hrx, hry]; exact hch.1)
    have hc : consecutivePairs (x :: y :: rest)
        = (x, y) :: consecutivePairs (y :: rest) := rfl
    rw [hc]
    simp only [List.mapM_cons, hxok, hprogs]
    exact ⟨_, rfl⟩

/-- C6: for a non-empty program and non-empty boundary list, negative
boundaries are resolved against the op count and `0` / the op count are
prepended/appended when absent (this is `normalize_op_indices`, used by
`split_program`); `split_program` fails with the InvalidBoundary error
exactly when the normalized list is not strictly increasing, and succeeds
exactly when it is. -/
theorem split_program_boundary_errors (p : Program) (B : List Int)
    (hB : B ≠ []) (hp : p.global_block.ops ≠ []) :
    (split_program p B = .error .invalidBoundary ↔
      ¬ List.Chain' (· < ·)
        (normalize_op_indices B (p.global_block.ops.length : Int))) ∧
    ((∃ r, split_program p B = .ok r) ↔
      List.Chain' (· < ·)
        (normalize_op_indices B (p.global_block.ops.length : Int))) := by
  have hBfalse : B.isEmpty = false := by
    rcases B with _ | _
    · exact absurd rfl hB
    · rfl
  have hlen : ¬ ((p.global_block.ops.length : Int) ≤ 0) := by
    have : p.global_block.ops.length ≠ 0 := by
      intro h0
      exact hp (List.eq_nil_of_length_eq_zero h0)
    omega
  by_cases hsort : strictlyIncreasing
      (normalize_op_indices B (p.global_block.ops.length : Int)) = true
  · have hch := (strictlyIncreasing_iff_chain _).mp hsort
    obtain ⟨progs, hprogs⟩ := mapM_prune_ok p
      (normalize_op_indices B (p.global_block.ops.length : Int)) 0 hch
      (normalize_head B _) le_rfl (normalize_last B _)
    have hok : split_program p B = .ok
        (progs, splitInputVars progs, splitValidOutputVars progs) := by
      unfold split_program
      dsimp only
      rw [if_neg (by simp [hBfalse]), if_neg hlen,
        if_neg (not_not_intro hsort), hprogs]
    constructor
    · rw [hok]
      simp only [iff_iff_implies_and_implies]
      exact ⟨fun hcontr => absurd hcontr (by simp),
        fun hcontr => absurd hch hcontr⟩
    · exact ⟨fun _ => hch, fun _ => ⟨_, hok⟩⟩
  · have herr : split_program p B = .error .invalidBoundary := by
      unfold split_program
      dsimp only
      rw [if_neg (by simp [hBfalse]), if_neg hlen, if_pos hsort]
    rw [herr]
    constructor
    · simp only [true_iff]
      intro hch
      exact hsort ((strictlyIncreasing_iff_chain _).mpr hch)
    · constructor
      · rintro ⟨r, hr⟩
        exact absurd hr (by simp)
      · intro hch
        exact absurd ((strictlyIncreasing_iff_chain _).mpr hch) hsort

/-- Concrete program for the C6 witness: three ops. -/
def splitExampleProgram : Program :=
  { blocks := [{ ops := [{ type := "f" }, { type := "g" },
                         { type := "h" }] }] }

/-- Witness for C6 at a concrete input: boundary `-1` resolves to `2`,
`0` and `3` are added, and the split succeeds; boundary list `[2, 1]`
normalizes to `[0, 2, 1, 3]` and fails with the InvalidBoundary error. -/
theorem split_program_boundary_witness :
    (∃ r, split_program splitExampleProgram [-1] = .ok r) ∧
    split_program splitExampleProgram [2, 1] = .error .invalidBoundary :=
  ⟨((split_program_boundary_errors splitExampleProgram [-1] (by decide)
      (by decide)).2).mpr ((strictlyIncreasing_iff_chain _).mp (by decide)),
   ((split_program_boundary_errors splitExampleProgram [2, 1] (by decide)
      (by decide)).1).mpr (fun hch =>
    absurd ((strictlyIncreasing_iff_chain _).mpr hch)
      (by decide))⟩

/-- Decomposition of a successful `split_program`. -/
theorem split_program_ok_elim (p : Program) (B : List Int)
    (r : List Program × List (List String) × List (List String))
    (h : split_program p B = .ok r) :
    B ≠ [] ∧ 0 < p.global_block.ops.length ∧
    strictlyIncreasing
      (normalize_op_indices B (p.global_block.ops.length : Int)) = true ∧
    ∃ progs, (consecutivePairs
        (normalize_op_indices B (p.global_block.ops.length : Int))).mapM
        (fun ab => prune_program p ab.1 ab.2) = .ok progs ∧
      r = (progs, splitInputVars progs, splitValidOutputVars progs) := by
  unfold split_program at h
  dsimp only at h
  split at h
  · exact absurd h (by simp)
  · split at h
    · exact absurd h (by simp)
    · split at h
      · exact absurd h (by simp)
      · split at h
        · exact absurd h (by simp)
        · rename_i hEmpty hLenNeg hSortNN hScrut progs hprogs
          simp only [Except.ok.injEq] at h
          refine ⟨?_, ?_, not_not.mp hSortNN, progs, hprogs, h.symm⟩
          · intro hBnil
            exact hEmpty (by simp [hBnil])
          · by_contra hle
            exact hLenNeg (by omega)

/-- Destructing `mapM` over `Except` on a cons cell. -/
theorem mapM_cons_ok {α β ε : Type} (f : α → Except ε β) (a : α)
    (l : List α) (out : List β) (h : (a :: l).mapM f = .ok out) :
    ∃ b out2, f a = .ok b ∧ l.mapM f = .ok out2 ∧ out = b :: out2 := by
  rw [List.mapM_cons] at h
  rcases hfa : f a with e | b
  · rw [hfa] at h
    exact absurd h (by simp [Bind.bind, Except.bind])
  · rw [hfa] at h
    rcases hl : l.mapM f with e | out2
    · rw [hl] at h
      exact absurd h (by simp [Bind.bind, Except.bind])
    · rw [hl] at h
      simp only [Bind.bind, Except.bind, pure, Except.pure,
        Except.ok.injEq] at h
      exact ⟨b, out2, rfl, rfl, h.symm⟩

/-- Glueing adjacent list slices. -/
theorem slice_append (t : List Op) (a b L : Nat) (hab : a ≤ b) (hbL : b ≤ L)
    (hbt : b ≤ t.length) :
    (t.take b).drop a ++ (t.take L).drop b = (t.take L).drop a := by
  have h1 : t.take L = t.take b ++ (t.take L).drop b := by
    conv_lhs => rw [← List.take_append_drop b (t.take L)]
    rw [List.take_take, Nat.min_eq_left hbL]
  conv_rhs => rw [h1]
  rw [List.drop_append_eq_append_drop]
  have hlen : (t.take b).length = b := by
    rw [List.length_take]
    exact Nat.min_eq_left hbt
  rw [hlen, Nat.sub_eq_zero_of_le hab, List.drop_zero]

/-- Joining the global-block op lists of the consecutive `prune_program`
slices reproduces the source slice from the first to the last boundary. -/
theorem mapM_prune_flatten (p : Program) : ∀ (l : List Int) (a L : Int)
    (progs : List Program),
    l.head? = some a → l.getLast? = some L → (∀ x ∈ l, 0 ≤ x) →
    (consecutivePairs l).mapM (fun ab => prune_program p ab.1 ab.2)
      = .ok progs →
    a ≤ L ∧ (progs.map (fun q => q.global_block.ops)).flatten
      = (p.global_block.ops.take L.toNat).drop a.toNat
  | [], a, L, progs => by simp
  | [x], a, L, progs => by
    intro ha hL _ hmapM
    simp only [List.head?_cons, Option.some.injEq] at ha
    simp only [List.getLast?_singleton, Option.some.injEq] at hL
    subst ha
    subst hL
    have hprogs : progs = [] := by
      have : (consecutivePairs [x]).mapM
          (fun ab => prune_program p ab.1 ab.2) = .ok ([] : List Program) :=
        rfl
      rw [this] at hmapM
      simpa using hmapM.symm
    subst hprogs
    refine ⟨le_refl _, ?_⟩
    simp [List.drop_take]
  | x :: y :: rest, a, L, progs => by
    intro ha hL hpos hmapM
    simp only [List.head?_cons, Option.some.injEq] at ha
    subst ha
    have hylast : (y :: rest).getLast? = some L := by
      rw [List.getLast?_cons_cons] at hL
      exact hL
    have hc : consecutivePairs (x :: y :: rest)
        = (x, y) :: consecutivePairs (y :: rest) := rfl
    rw [hc] at hmapM
    obtain ⟨q, progs2, hq, hrest, hout⟩ := mapM_cons_ok _ _ _ _ hmapM
    subst hout
    obtain ⟨hyL, hflat⟩ := mapM_prune_flatten p (y :: rest) y L progs2
      (by simp) hylast (fun z hz => hpos z (List.mem_cons_of_mem x hz)) hrest
    obtain ⟨hc1, hc2, hc3, hc4, hc5, hqeq⟩ := prune_program_ok_elim p x y q hq
    have hx0 : (0 : Int) ≤ x := hpos x (by simp)
    have hy0 : (0 : Int) ≤ y := hpos y (by simp)
    have hrx : resolveIdx x (p.global_block.ops.length : Int) = x := by
      unfold resolveIdx
      rw [if_neg (by omega)]
    have hry : resolveIdx y (p.global_block.ops.length : Int) = y := by
      unfold resolveIdx
      rw [if_neg (by omega)]
    rw [hrx, hry] at hc5 hqeq
    rw [hrx] at hc2
    rw [hry] at hc4
    refine ⟨by omega, ?_⟩
    rw [List.map_cons, List.flatten_cons, hflat, hqeq, global_block_cons]
    dsimp only
    refine slice_append p.global_block.ops x.toNat y.toNat L.toNat
      (by omega) (by omega) ?_
    have : y ≤ (p.global_block.ops.length : Int) := hc4
    omega

/-- When every boundary is already resolved, starts at `0` and ends at the
op count, normalization is the identity. -/
theorem normalize_id (B : List Int) (n : Int) (hpos : ∀ x ∈ B, 0 ≤ x)
    (hhead : B.head? = some 0) (hlast : B.getLast? = some n) :
    normalize_op_indices B n = B := by
  unfold normalize_op_indices
  dsimp only
  have hmap : B.map (fun idx => resolveIdx idx n) = B := by
    have : ∀ x ∈ B, resolveIdx x n = x := by
      intro x hx
      unfold resolveIdx
      rw [if_neg (by have := hpos x hx; omega)]
    calc B.map (fun idx => resolveIdx idx n) = B.map id :=
          List.map_congr_left this
      _ = B := List.map_id B
  rw [hmap, if_neg (not_not_intro hhead), if_neg (not_not_intro hlast)]

/-- Along a strictly increasing chain every element is at most the last. -/
theorem chain_mem_le_last : ∀ (l : List Int) (L : Int),
    List.Chain' (· < ·) l → l.getLast? = some L → ∀ x ∈ l, x ≤ L
  | [], L => by simp
  | [a], L => by
    intro _ hL x hx
    simp only [List.getLast?_singleton, Option.some.injEq] at hL
    simp only [List.mem_singleton] at hx
    omega
  | a :: b :: rest, L => by
    intro hch hL x hx
    rw [List.chain'_cons] at hch
    rw [List.getLast?_cons_cons] at hL
    have ih := chain_mem_le_last (b :: rest) L hch.2 hL
    rcases List.mem_cons.mp hx with rfl | hx2
    · have := ih b (by simp)
      have := hch.1
      omega
    · exact ih x hx2

/-- In a strictly increasing list containing `0` whose elements are
non-negative, the head is `0`. -/
theorem chain_head_zero (B : List Int) (hch : List.Chain' (· < ·) B)
    (h0 : (0 : Int) ∈ B) (hpos : ∀ x ∈ B, 0 ≤ x) : B.head? = some 0 := by
  rcases B with _ | ⟨b0, rest⟩
  · exact absurd h0 (by simp)
  · have hpw := List.chain'_iff_pairwise.mp hch
    rcases List.mem_cons.mp h0 with rfl | h0r
    · rfl
    · have : b0 < 0 := (List.pairwise_cons.mp hpw).1 0 h0r
      have : (0 : Int) ≤ b0 := hpos b0 (by simp)
      omega

/-- In a strictly increasing list containing its upper bound `n`, the last
element is `n`. -/
theorem chain_last_bound (B : List Int) (n : Int)
    (hch : List.Chain' (· < ·) B) (hn : n ∈ B)
    (hbound : ∀ x ∈ B, x ≤ n) : B.getLast? = some n := by
  have hBne : B ≠ [] := by
    intro hnil
    rw [hnil] at hn
    exact absurd hn (by simp)
  rcases hlast : B.getLast? with _ | L
  · exact absurd (List.getLast?_eq_none_iff.mp hlast) hBne
  · have hL : L ∈ B := by
      obtain ⟨hne, hLe⟩ := List.mem_getLast?_eq_getLast
        (show L ∈ B.getLast? from Option.mem_def.mpr hlast)
      rw [hLe]
      exact List.getLast_mem hne
    have h1 : n ≤ L := chain_mem_le_last B L hch hlast n hn
    have h2 : L ≤ n := hbound L hL
    have : L = n := by omega
    rw [this]

/-- C3: for a normalized boundary list (`0` and the op count present,
strictly increasing, in range), concatenating the operator sequences of
the sub-programs returned by `split_program` in order yields exactly the
operator sequence of `prune_program(P, 0, op_count)`. -/
theorem split_round_trip (p : Program) (B : List Int)
    (progs : List Program) (ins outs : List (List String))
    (hchain : List.Chain' (· < ·) B) (h0 : (0 : Int) ∈ B)
    (hN : (p.global_block.ops.length : Int) ∈ B)
    (hrange : ∀ x ∈ B, 0 ≤ x ∧ x ≤ (p.global_block.ops.length : Int))
    (hok : split_program p B = .ok (progs, ins, outs)) :
    ∃ q, prune_program p 0 (p.global_block.ops.length : Int) = .ok q ∧
      (progs.map (fun r => r.global_block.ops)).flatten
        = q.global_block.ops := by
  obtain ⟨hBne, hlen, hsort, progs2, hmapM, heq⟩ :=
    split_program_ok_elim p B _ hok
  have hprogs2 : progs2 = progs := by
    have := congrArg Prod.fst heq
    simpa using this.symm
  subst hprogs2
  have hhead : B.head? = some 0 :=
    chain_head_zero B hchain h0 (fun x hx => (hrange x hx).1)
  have hlast : B.getLast? = some (p.global_block.ops.length : Int) :=
    chain_last_bound B _ hchain hN (fun x hx => (hrange x hx).2)
  rw [normalize_id B _ (fun x hx => (hrange x hx).1) hhead hlast] at hmapM
  obtain ⟨_, hflat⟩ := mapM_prune_flatten p B 0
    (p.global_block.ops.length : Int) progs2 hhead hlast
    (fun x hx => (hrange x hx).1) hmapM
  have hr0 : resolveIdx 0 (p.global_block.ops.length : Int) = 0 := by
    unfold resolveIdx
    rw [if_neg (by omega)]
  have hrN : resolveIdx (p.global_block.ops.length : Int)
      (p.global_block.ops.length : Int) = (p.global_block.ops.length : Int) := by
    unfold resolveIdx
    rw [if_neg (by omega)]
  refine ⟨_, prune_program_ok_intro p 0 (p.global_block.ops.length : Int)
    (by rw [hr0]) (by rw [hr0]; exact_mod_cast hlen)
    (by rw [hrN]; exact_mod_cast Nat.zero_le _) (by rw [hrN])
    (by rw [hr0, hrN]; exact_mod_cast hlen), ?_⟩
  rw [global_block_cons]
  dsimp only
  rw [hflat, hr0, hrN]

/-- Witness for C3 at a concrete input: `splitExampleProgram` has three
ops; `B = [0, 2, 3]` is normalized, strictly increasing, and in range. -/
theorem split_round_trip_witness :
    ∃ r, split_program splitExampleProgram [0, 2, 3] = .ok r ∧
      ∃ q, prune_program splitExampleProgram 0
          (splitExampleProgram.global_block.ops.length : Int) = .ok q ∧
        (r.1.map (fun s => s.global_block.ops)).flatten
          = q.global_block.ops := by
  have hnorm : normalize_op_indices [0, 2, 3]
      (splitExampleProgram.global_block.ops.length : Int) = [0, 2, 3] := by
    decide
  obtain ⟨progs, hmapM⟩ := mapM_prune_ok splitExampleProgram [0, 2, 3] 0
    ((strictlyIncreasing_iff_chain _).mp (by decide)) rfl le_rfl (by decide)
  have hok : split_program splitExampleProgram [0, 2, 3]
      = .ok (progs, splitInputVars progs, splitValidOutputVars progs) := by
    unfold split_program
    dsimp only
    rw [if_neg (by decide), if_neg (by decide), hnorm,
      if_neg (by decide), hmapM]
  obtain ⟨q, hq, hflat⟩ := split_round_trip splitExampleProgram [0, 2, 3]
    progs (splitInputVars progs) (splitValidOutputVars progs)
    ((strictlyIncreasing_iff_chain _).mp (by decide)) (by decide)
    (by decide) (by decide) hok
  exact ⟨(progs, splitInputVars progs, splitValidOutputVars progs),
    hok, q, hq, hflat⟩

/-- `List.contains` on strings is plain membership. -/
theorem contains_iff_mem_str (l : List String) (s : String) :
    l.contains s = true ↔ s ∈ l := by
  rw [List.contains_iff_exists_mem_beq]
  constructor
  · rintro ⟨x, hx, hbeq⟩
    have : s = x := by simpa using hbeq
    rwa [this]
  · intro h
    exact ⟨s, h, by simp⟩

/-- Membership in an ordered-dict insertion. -/
theorem mem_odInsert (l : List String) (s name : String) :
    name ∈ odInsert l s ↔ name ∈ l ∨ name = s := by
  unfold odInsert
  by_cases h : l.contains s
  · rw [if_pos h]
    have hs : s ∈ l := (contains_iff_mem_str l s).mp h
    constructor
    · exact Or.inl
    · rintro (h1 | rfl)
      · exact h1
      · exact hs
  · rw [if_neg h]
    simp

/-- The nearest-earlier-producer scan characterized: it returns `j` exactly
when `j` is the largest index below `i` whose raw outputs contain the
name. -/
theorem attributionTarget_eq_some (ov : List (List String)) (name : String) :
    ∀ (i j : Nat), attributionTarget ov i name = some j ↔
      (j < i ∧ (ov.getD j []).contains name = true ∧
        ∀ k, j < k → k < i → (ov.getD k []).contains name = false)
  | 0, j => by
    constructor
    · intro h
      exact absurd h (by simp [attributionTarget])
    · rintro ⟨h1, _, _⟩
      omega
  | i + 1, j => by
    have hsucc : attributionTarget ov (i + 1) name
        = (if (ov.getD i []).contains name then some i
           else attributionTarget ov i name) := by
      unfold attributionTarget
      rw [List.range_succ, List.reverse_append]
      simp only [List.reverse_singleton, List.singleton_append,
        List.find?_cons]
      split
      · rename_i heq
        rw [if_pos heq]
      · rename_i heq
        rw [if_neg (by rw [heq]; simp)]
    rw [hsucc]
    by_cases hi : (ov.getD i []).contains name = true
    · rw [if_pos hi]
      constructor
      · intro h
        have hji : j = i := by simpa using h.symm
        subst hji
        exact ⟨by omega, hi, by omega⟩
      · rintro ⟨h1, h2, h3⟩
        by_cases hij : j = i
        · rw [hij]
        · have : (ov.getD i []).contains name = false := h3 i (by omega) (by omega)
          rw [hi] at this
          exact absurd this (by simp)
    · rw [if_neg hi]
      rw [attributionTarget_eq_some ov name i j]
      constructor
      · rintro ⟨h1, h2, h3⟩
        refine ⟨by omega, h2, ?_⟩
        intro k hk1 hk2
        by_cases hki : k = i
        · subst hki
          simpa using hi
        · exact h3 k hk1 (by omega)
      · rintro ⟨h1, h2, h3⟩
        have hji : j ≠ i := by
          intro hji
          subst hji
          exact hi h2
        exact ⟨by omega, h2, fun k hk1 hk2 => h3 k hk1 (by omega)⟩

/-- `applyAttribution` preserves the length of the valid-output table. -/
theorem length_applyAttribution (ov : List (List String))
    (valid : List (List String)) (i : Nat) (name : String) :
    (applyAttribution ov valid i name).length = valid.length := by
  unfold applyAttribution
  split
  · exact List.length_set valid _ _
  · rfl

/-- Membership step for one `applyAttribution`. -/
theorem mem_applyAttribution (ov : List (List String))
    (valid : List (List String)) (i : Nat) (nm : String) (j : Nat)
    (name : String) :
    name ∈ (applyAttribution ov valid i nm).getD j [] ↔
      (name ∈ valid.getD j [] ∨
        (name = nm ∧ attributionTarget ov i nm = some j ∧
          j < valid.length)) := by
  unfold applyAttribution
  rcases ht : attributionTarget ov i nm with _ | j0
  · dsimp only
    simp [ht]
  · dsimp only
    by_cases hj : j0 = j
    · subst hj
      by_cases hlen : j0 < valid.length
      · have : (valid.set j0 (odInsert (valid.getD j0 []) nm)).getD j0 []
            = odInsert (valid.getD j0 []) nm := by
          rw [List.getD_eq_getElem?_getD, List.getElem?_set_self hlen]
          rfl
        rw [this, mem_odInsert]
        simp [hlen]
      · rw [List.set_eq_of_length_le (by omega)]
        simp only [ht, Option.some.injEq]
        constructor
        · exact Or.inl
        · rintro (h1 | ⟨_, _, hcontra⟩)
          · exact h1
          · omega
    · have : (valid.set j0 (odInsert (valid.getD j0 []) nm)).getD j []
          = valid.getD j [] := by
        rw [List.getD_eq_getElem?_getD, List.getElem?_set_ne hj,
          ← List.getD_eq_getElem?_getD]
      rw [this]
      simp only [ht, Option.some.injEq]
      constructor
      · exact Or.inl
      · rintro (h1 | ⟨_, hj0, _⟩)
        · exact h1
        · exact absurd hj0 hj

/-- The inner attribution fold preserves the table length. -/
theorem length_foldl_attr (ov : List (List String)) (i : Nat) :
    ∀ (names : List String) (valid : List (List String)),
      (names.foldl (fun v nm => applyAttribution ov v i nm) valid).length
        = valid.length
  | [], valid => rfl
  | nm :: rest, valid => by
    rw [List.foldl_cons, length_foldl_attr ov i rest _,
      length_applyAttribution]

/-- Membership after the inner attribution fold. -/
theorem mem_foldl_attr (ov : List (List String)) (i : Nat) :
    ∀ (names : List String) (valid : List (List String)) (j : Nat)
      (name : String),
      name ∈ ((names.foldl (fun v nm => applyAttribution ov v i nm)
          valid).getD j []) ↔
        (name ∈ valid.getD j [] ∨
          (name ∈ names ∧ attributionTarget ov i name = some j ∧
            j < valid.length))
  | [], valid, j, name => by simp
  | nm :: rest, valid, j, name => by
    rw [List.foldl_cons, mem_foldl_attr ov i rest _ j name,
      mem_applyAttribution, length_applyAttribution]
    constructor
    · rintro ((h1 | ⟨rfl, h2, h3⟩) | ⟨h1, h2, h3⟩)
      · exact Or.inl h1
      · exact Or.inr ⟨by simp, h2, h3⟩
      · exact Or.inr ⟨List.mem_cons_of_mem nm h1, h2, h3⟩
    · rintro (h1 | ⟨hmem, h2, h3⟩)
      · exact Or.inl (Or.inl h1)
      · rcases List.mem_cons.mp hmem with rfl | htail
        · exact Or.inl (Or.inr ⟨rfl, h2, h3⟩)
        · exact Or.inr ⟨htail, h2, h3⟩

/-- The outer attribution fold preserves the table length. -/
theorem length_foldl_outer (ov inputVars : List (List String)) :
    ∀ (iList : List Nat) (valid : List (List String)),
      (iList.foldl (fun v i => (inputVars.getD i []).foldl
          (fun v2 nm => applyAttribution ov v2 i nm) v) valid).length
        = valid.length
  | [], valid => rfl
  | i :: rest, valid => by
    rw [List.foldl_cons, length_foldl_outer ov inputVars rest _,
      length_foldl_attr]

/-- Membership after the outer attribution fold. -/
theorem mem_foldl_outer (ov inputVars : List (List String)) :
    ∀ (iList : List Nat) (valid : List (List String)) (j : Nat)
      (name : String),
      name ∈ ((iList.foldl (fun v i => (inputVars.getD i []).foldl
          (fun v2 nm => applyAttribution ov v2 i nm) v) valid).getD j []) ↔
        (name ∈ valid.getD j [] ∨
          ∃ i ∈ iList, name ∈ inputVars.getD i [] ∧
            attributionTarget ov i name = some j ∧ j < valid.length)
  | [], valid, j, name => by simp
  | i :: rest, valid, j, name => by
    rw [List.foldl_cons, mem_foldl_outer ov inputVars rest _ j name,
      mem_foldl_attr, length_foldl_attr]
    constructor
    · rintro ((h1 | ⟨h1, h2, h3⟩) | ⟨i2, hi2, h1, h2, h3⟩)
      · exact Or.inl h1
      · exact Or.inr ⟨i, by simp, h1, h2, h3⟩
      · exact Or.inr ⟨i2, List.mem_cons_of_mem i hi2, h1, h2, h3⟩
    · rintro (h1 | ⟨i2, hi2, h1, h2, h3⟩)
      · exact Or.inl (Or.inl h1)
      · rcases List.mem_cons.mp hi2 with rfl | htail
        · exact Or.inl (Or.inr ⟨h1, h2, h3⟩)
        · exact Or.inr ⟨i2, htail, h1, h2, h3⟩

/-- Membership in `range' 1 k`. -/
theorem mem_range_one (k m : Nat) :
    m ∈ List.range' 1 k ↔ 1 ≤ m ∧ m < 1 + k := by
  rw [List.mem_range']
  constructor
  · rintro ⟨i, hi, rfl⟩
    omega
  · rintro ⟨h1, h2⟩
    exact ⟨m - 1, by omega, by omega⟩

/-- The initial valid-output table: empty everywhere except the last
sub-program, which keeps its raw outputs. -/
theorem init_valid_getD (outputVars : List (List String)) (n j : Nat) :
    ((List.range n).map
      (fun k => if k = n - 1 then outputVars.getD k [] else [])).getD j []
    = if j < n ∧ j = n - 1 then outputVars.getD j [] else [] := by
  by_cases hj : j < n
  · have hstep : ((List.range n).map
        (fun k => if k = n - 1 then outputVars.getD k [] else [])).getD j []
        = (if j = n - 1 then outputVars.getD j [] else []) := by
      rw [List.getD_eq_getElem?_getD, List.getElem?_map,
        List.getElem?_range hj]
      rfl
    rw [hstep]
    by_cases hlast : j = n - 1
    · rw [if_pos hlast, if_pos ⟨hj, hlast⟩]
    · rw [if_neg hlast, if_neg (fun hc => hlast hc.2)]
  · rw [List.getD_eq_getElem?_getD, List.getElem?_map]
    rw [List.getElem?_eq_none (by rw [List.length_range]; omega)]
    rw [if_neg (fun hc => hj hc.1)]
    rfl

/-- Master characterization of the valid-output table computed by
`split_program`: a name is a valid output of sub-program `j` iff `j` is the
last sub-program and wrote the name, or some later sub-program `i` has the
name among its inputs and `j` is the nearest earlier sub-program whose raw
outputs contain it. -/
theorem mem_splitValidOutputVars (progs : List Program) (j : Nat)
    (name : String) :
    name ∈ (splitValidOutputVars progs).getD j [] ↔
      ((j < progs.length ∧ j = progs.length - 1 ∧
        name ∈ (splitRawOutputVars progs).getD j []) ∨
       ∃ i, i < progs.length ∧ name ∈ (splitInputVars progs).getD i [] ∧
         attributionTarget (splitRawOutputVars progs) i name = some j) := by
  unfold splitValidOutputVars
  dsimp only
  rw [mem_foldl_outer]
  rw [init_valid_getD]
  have hlen : ((List.range progs.length).map
      (fun k => if k = progs.length - 1 then
        (splitRawOutputVars progs).getD k [] else [])).length
      = progs.length := by
    rw [List.length_map, List.length_range]
  rw [hlen]
  constructor
  · rintro (h1 | ⟨i, hi, h1, h2, h3⟩)
    · split at h1
      · rename_i hcond
        exact Or.inl ⟨hcond.1, hcond.2, h1⟩
      · exact absurd h1 (by simp)
    · refine Or.inr ⟨i, ?_, h1, h2⟩
      rw [mem_range_one] at hi
      omega
  · rintro (⟨h1, h2, h3⟩ | ⟨i, hi, h1, h2⟩)
    · left
      rw [if_pos ⟨h1, h2⟩]
      exact h3
    · right
      have hji := ((attributionTarget_eq_some _ _ _ _).mp h2).1
      refine ⟨i, ?_, h1, h2, by omega⟩
      rw [mem_range_one]
      omega

/-- A successful `mapM` preserves length. -/
theorem mapM_length_ok {α β ε : Type} (f : α → Except ε β) :
    ∀ (l : List α) (out : List β), l.mapM f = .ok out →
      out.length = l.length
  | [], out => by
    intro h
    have : (Except.ok [] : Except ε (List β)) = .ok out := h
    simp only [Except.ok.injEq] at this
    rw [← this]
    rfl
  | a :: l, out => by
    intro h
    obtain ⟨b, out2, _, hrest, rfl⟩ := mapM_cons_ok f a l out h
    rw [List.length_cons, List.length_cons, mapM_length_ok f l out2 hrest]

/-- `List.contains` is false exactly on non-members. -/
theorem contains_eq_false_iff_str (l : List String) (s : String) :
    l.contains s = false ↔ s ∉ l := by
  rw [← contains_iff_mem_str, Bool.eq_false_iff]

/-- C4 (amended): for a successful split, every name in a non-last
sub-program's valid outputs is among that sub-program's raw outputs and is
an input of some later sub-program for which this sub-program is the
nearest earlier producer (no sub-program strictly in between outputs the
name); and in the concrete scenario of a 10-operator program split at
`[4, 7]` where sub-program 0 writes `x`, sub-program 1 neither reads nor
writes `x`, and sub-program 2 reads `x` as an external input, `x` is a
valid output of sub-program 0 and not of sub-program 1.  (The claim's
stronger removal-minimality is refuted by
`split_minimality_counterexample`.) -/
theorem split_valid_outputs_characterized (p : Program) (B : List Int)
    (progs : List Program) (ins outs : List (List String))
    (hok : split_program p B = .ok (progs, ins, outs)) :
    (∀ j name, j + 1 < progs.length → name ∈ outs.getD j [] →
      name ∈ (splitRawOutputVars progs).getD j [] ∧
      ∃ i, j < i ∧ i < progs.length ∧ name ∈ ins.getD i [] ∧
        ∀ k, j < k → k < i →
          name ∉ (splitRawOutputVars progs).getD k []) ∧
    (p.global_block.ops.length = 10 → B = [4, 7] → ∀ x,
      x ∈ (splitRawOutputVars progs).getD 0 [] →
      x ∉ (splitRawOutputVars progs).getD 1 [] →
      x ∉ ins.getD 1 [] → x ∈ ins.getD 2 [] →
      x ∈ outs.getD 0 [] ∧ x ∉ outs.getD 1 []) := by
  obtain ⟨hBne, hplen, hsort, progs2, hmapM, heq⟩ :=
    split_program_ok_elim p B _ hok
  simp only [Prod.mk.injEq] at heq
  obtain ⟨hp2, hins, houts⟩ := heq
  subst hp2
  subst hins
  subst houts
  constructor
  · intro j name hj hmem
    rcases (mem_splitValidOutputVars progs j name).mp hmem with
      ⟨hlt, hlast, _⟩ | ⟨i, hilen, hiin, htarget⟩
    · omega
    · obtain ⟨hji, hcont, hbetween⟩ :=
        (attributionTarget_eq_some _ _ _ _).mp htarget
      refine ⟨(contains_iff_mem_str _ _).mp hcont, i, hji, hilen, hiin, ?_⟩
      intro k hk1 hk2
      exact (contains_eq_false_iff_str _ _).mp (hbetween k hk1 hk2)
  · intro hlen10 hB x hout0 hnout1 hnin1 hin2
    subst hB
    have hnorm : normalize_op_indices [4, 7]
        (p.global_block.ops.length : Int) = [0, 4, 7, 10] := by
      rw [hlen10]
      decide
    rw [hnorm] at hmapM
    have hlen3 : progs.length = 3 := mapM_length_ok _ _ _ hmapM
    have htarget : attributionTarget (splitRawOutputVars progs) 2 x
        = some 0 := by
      rw [attributionTarget_eq_some]
      refine ⟨by omega, (contains_iff_mem_str _ _).mpr hout0, ?_⟩
      intro k hk1 hk2
      have hk : k = 1 := by omega
      subst hk
      exact (contains_eq_false_iff_str _ _).mpr hnout1
    constructor
    · exact (mem_splitValidOutputVars progs 0 x).mpr
        (Or.inr ⟨2, by omega, hin2, htarget⟩)
    · intro hmem
      rcases (mem_splitValidOutputVars progs 1 x).mp hmem with
        ⟨_, hlast, _⟩ | ⟨i, _, _, htgt1⟩
      · omega
      · obtain ⟨_, hcont, _⟩ := (attributionTarget_eq_some _ _ _ _).mp htgt1
        exact hnout1 ((contains_iff_mem_str _ _).mp hcont)

/-- Removing one name from the valid-output list of sub-program `j`. -/
def removeValidOutput (valids : List (List String)) (j : Nat)
    (name : String) : List (List String) :=
  valids.set j ((valids.getD j []).filter (fun s => s != name))

/-- The claim's removal-minimality property: removing any name from a
non-last valid-output list leaves some later sub-program's input
unprovided by every earlier sub-program's valid outputs. -/
@[reducible]
def MinimalValidOutputs (ins valids : List (List String)) : Prop :=
  ∀ j < valids.length - 1, ∀ name ∈ valids.getD j [],
    ∃ i ∈ List.range ins.length, j < i ∧ ∃ nm ∈ ins.getD i [],
      ∀ k < i, nm ∉ (removeValidOutput valids j name).getD k []

/-- Concrete program refuting C4's removal-minimality: sub-program 0
writes `x`, sub-program 1 reads and over-writes `x`, sub-program 2 reads
`x`. -/
def minimalityCexProgram : Program :=
  { blocks := [{ ops := [{ type := "w", outputSlots := [("Out", ["x"])] },
                         { type := "rw", inputSlots := [("X", ["x"])],
                           outputSlots := [("Out", ["x"])] },
                         { type := "r", inputSlots := [("X", ["x"])] }],
                 vars := [{ name := "x" }] }] }

/-- C4 counterexample: splitting `minimalityCexProgram` at `[1, 2]` yields
input lists `[[], [x], [x]]` and valid-output lists `[[x], [x], []]`;
`x` can be removed from sub-program 1's valid outputs while every later
sub-program's input stays provided by an earlier sub-program's valid
outputs (sub-program 0 still provides `x`), so the claim's minimality
property is false. -/
theorem split_minimality_counterexample :
    (split_program minimalityCexProgram [1, 2]).toOption.map
        (fun r => (r.2.1, r.2.2))
      = some ([[], ["x"], ["x"]], [["x"], ["x"], []]) ∧
    "x" ∈ ([["x"], ["x"], []] : List (List String)).getD 1 [] ∧
    ¬ MinimalValidOutputs [[], ["x"], ["x"]] [["x"], ["x"], []] := by
  decide

/-- Concrete 10-operator program realizing C4's scenario. -/
def scenarioProgram : Program :=
  { blocks := [{ ops := [{ type := "w", outputSlots := [("Out", ["x"])] },
                         { type := "n1" }, { type := "n2" }, { type := "n3" },
                         { type := "n4" }, { type := "n5" }, { type := "n6" },
                         { type := "r", inputSlots := [("X", ["x"])] },
                         { type := "n7" }, { type := "n8" }],
                 vars := [{ name := "x" }] }] }

/-- Witness for the amended C4 theorem on the concrete 10-op scenario. -/
theorem split_valid_outputs_witness :
    ∃ progs ins outs,
      split_program scenarioProgram [4, 7] = .ok (progs, ins, outs) ∧
      "x" ∈ outs.getD 0 [] ∧ "x" ∉ outs.getD 1 [] := by
  rcases hok : split_program scenarioProgram [4, 7] with e | r
  · have hsome : (split_program scenarioProgram [4, 7]).toOption.isSome
        = true := by decide
    rw [hok] at hsome
    simp [Except.toOption] at hsome
  · obtain ⟨progs, ins, outs⟩ := r
    have hins : ins = [[], [], ["x"]] := by
      have h1 : (split_program scenarioProgram [4, 7]).toOption.map
          (fun r => r.2.1) = some [[], [], ["x"]] := by decide
      rw [hok] at h1
      simpa [Except.toOption] using h1
    have houts : outs = [["x"], [], []] := by
      have h1 : (split_program scenarioProgram [4, 7]).toOption.map
          (fun r => r.2.2) = some [["x"], [], []] := by decide
      rw [hok] at h1
      simpa [Except.toOption] using h1
    have hraw : splitRawOutputVars progs = [["x"], [], []] := by
      have h1 : (split_program scenarioProgram [4, 7]).toOption.map
          (fun r => splitRawOutputVars r.1) = some [["x"], [], []] := by
        decide
      rw [hok] at h1
      simpa [Except.toOption] using h1
    have hmain := (split_valid_outputs_characterized scenarioProgram [4, 7]
      progs ins outs hok).2 rfl rfl "x"
      (by rw [hraw]; decide) (by rw [hraw]; decide)
      (by rw [hins]; decide) (by rw [hins]; decide)
    exact ⟨progs, ins, outs, rfl, hmain.1, hmain.2⟩

/-! ### C1, C2: the cross-stage liveness scheduler -/

/-- The union of required-variable sets of the given jobs restricted to
micro-batch `m` — the value accumulated in `suffixed_required_vars[m]`
after the reverse scan has processed exactly these jobs. -/
def suffixUnion (req : String → Finset String) (jobs : List Job) (m : Nat) :
    Finset String :=
  jobs.foldr
    (fun job acc => if job.microBatchId = m then req job.type ∪ acc else acc)
    ∅

/-- Unfolding `assignSkipGcVars` on a cons cell. -/
theorem assignSkipGcVars_cons (req : String → Finset String)
    (suffix : Nat → Finset String) (job : Job) (rest : List Job) :
    assignSkipGcVars req suffix (job :: rest)
      = (assignSkipGcVars req suffix rest).bind (fun pr =>
          if job.type = "backward" ∧ req job.type ∩ pr.2 job.microBatchId ≠ ∅
          then .error .inconsistentScheduleInvariant
          else .ok ((job, req job.type ∩ pr.2 job.microBatchId) :: pr.1,
            fun m => if m = job.microBatchId then pr.2 m ∪ req job.type
                     else pr.2 m)) := rfl

/-- Characterization of a successful reverse scan: the final suffix state
accumulates the per-micro-batch unions, and each job's recorded skip-GC
set is its required set intersected with the suffix union of the jobs
after it on the same micro-batch. -/
theorem assignSkipGcVars_ok (req : String → Finset String) :
    ∀ (jobs : List Job) (suffix : Nat → Finset String)
      (result : List (Job × Finset String)) (suffix2 : Nat → Finset String),
      assignSkipGcVars req suffix jobs = .ok (result, suffix2) →
      result.length = jobs.length ∧
      (∀ m, suffix2 m = suffix m ∪ suffixUnion req jobs m) ∧
      (∀ k job, jobs[k]? = some job →
        result[k]? = some (job, req job.type ∩
          (suffix job.microBatchId ∪
            suffixUnion req (jobs.drop (k + 1)) job.microBatchId)))
  | [], suffix, result, suffix2 => by
    intro h
    simp only [assignSkipGcVars, Except.ok.injEq, Prod.mk.injEq] at h
    obtain ⟨h1, h2⟩ := h
    subst h1
    subst h2
    refine ⟨rfl, fun m => by simp [suffixUnion], fun k job hk => by simp at hk⟩
  | job :: rest, suffix, result, suffix2 => by
    intro h
    rw [assignSkipGcVars_cons] at h
    rcases hrest : assignSkipGcVars req suffix rest with e | pr
    · rw [hrest] at h
      exact absurd h (by simp [Except.bind])
    · rw [hrest] at h
      obtain ⟨restResult, suffix1⟩ := pr
      simp only [Except.bind] at h
      split at h
      · exact absurd h (by simp)
      · rename_i hcheck
        simp only [Except.ok.injEq, Prod.mk.injEq] at h
        obtain ⟨h1, h2⟩ := h
        subst h1
        subst h2
        obtain ⟨ihlen, ihsuffix, ihidx⟩ :=
          assignSkipGcVars_ok req rest suffix restResult suffix1 hrest
        refine ⟨by simp [ihlen], ?_, ?_⟩
        · intro m
          by_cases hm : m = job.microBatchId
          · subst hm
            dsimp only
            rw [if_pos (rfl : job.microBatchId = job.microBatchId), ihsuffix]
            unfold suffixUnion
            rw [List.foldr_cons,
              if_pos (rfl : job.microBatchId = job.microBatchId)]
            ext a
            simp only [Finset.mem_union]
            tauto
          · dsimp only
            rw [if_neg hm, ihsuffix m]
            show _ = suffix m ∪ suffixUnion req (job :: rest) m
            unfold suffixUnion
            rw [List.foldr_cons, if_neg (fun hc => hm hc.symm)]
        · intro k j hk
          rcases k with _ | k2
          · simp only [List.getElem?_cons_zero, Option.some.injEq] at hk
            subst hk
            simp only [List.getElem?_cons_zero, Option.some.injEq,
              Prod.mk.injEq, true_and, List.drop_succ_cons, List.drop_zero]
            rw [ihsuffix]
          · simp only [List.getElem?_cons_succ] at hk
            simp only [List.getElem?_cons_succ, List.drop_succ_cons]
            exact ihidx k2 j hk

/-- The reverse scan only ever fails with the backward-invariant error. -/
theorem assignSkipGcVars_error (req : String → Finset String) :
    ∀ (jobs : List Job) (suffix : Nat → Finset String) (e : GcError),
      assignSkipGcVars req suffix jobs = .error e →
      e = .inconsistentScheduleInvariant
  | [], suffix, e => by
    intro h
    exact absurd h (by simp [assignSkipGcVars])
  | job :: rest, suffix, e => by
    intro h
    rw [assignSkipGcVars_cons] at h
    rcases hrest : assignSkipGcVars req suffix rest with e2 | pr
    · rw [hrest] at h
      simp only [Except.bind, Except.error.injEq] at h
      rw [← h]
      exact assignSkipGcVars_error req rest suffix e2 hrest
    · rw [hrest] at h
      simp only [Except.bind] at h
      split at h
      · simp only [Except.error.injEq] at h
        exact h.symm
      · exact absurd h (by simp)

/-- In a successful reverse scan every backward job records an empty
skip-GC set. -/
theorem assignSkipGcVars_backward_empty (req : String → Finset String) :
    ∀ (jobs : List Job) (suffix : Nat → Finset String)
      (result : List (Job × Finset String)) (suffix2 : Nat → Finset String),
      assignSkipGcVars req suffix jobs = .ok (result, suffix2) →
      ∀ pr ∈ result, pr.1.type = "backward" → pr.2 = ∅
  | [], suffix, result, suffix2 => by
    intro h
    simp only [assignSkipGcVars, Except.ok.injEq, Prod.mk.injEq] at h
    obtain ⟨h1, _⟩ := h
    subst h1
    intro pr hpr
    exact absurd hpr (by simp)
  | job :: rest, suffix, result, suffix2 => by
    intro h
    rw [assignSkipGcVars_cons] at h
    rcases hrest : assignSkipGcVars req suffix rest with e | pr
    · rw [hrest] at h
      exact absurd h (by simp [Except.bind])
    · rw [hrest] at h
      obtain ⟨restResult, suffix1⟩ := pr
      simp only [Except.bind] at h
      split at h
      · exact absurd h (by simp)
      · rename_i hcheck
        simp only [Except.ok.injEq, Prod.mk.injEq] at h
        obtain ⟨h1, _⟩ := h
        subst h1
        intro pr hpr hbwd
        rcases List.mem_cons.mp hpr with rfl | htail
        · by_contra hne
          exact hcheck ⟨hbwd, hne⟩
        · exact assignSkipGcVars_backward_empty req rest suffix restResult
            suffix1 hrest pr htail hbwd

/-- A backward job whose intrinsic skip-GC set is non-empty forces the
reverse scan to fail. -/
theorem assignSkipGcVars_error_of_violation (req : String → Finset String)
    (jobs : List Job) (suffix : Nat → Finset String)
    (hvio : ∃ k job, jobs[k]? = some job ∧ job.type = "backward" ∧
      req job.type ∩ (suffix job.microBatchId ∪
        suffixUnion req (jobs.drop (k + 1)) job.microBatchId) ≠ ∅) :
    assignSkipGcVars req suffix jobs
      = .error .inconsistentScheduleInvariant := by
  obtain ⟨k, job, hk, hbwd, hne⟩ := hvio
  rcases hres : assignSkipGcVars req suffix jobs with e | pr
  · exact congrArg Except.error
      (assignSkipGcVars_error req jobs suffix e hres)
  · obtain ⟨result, suffix2⟩ := pr
    obtain ⟨_, _, hidx⟩ := assignSkipGcVars_ok req jobs suffix result
      suffix2 hres
    have hmem : (job, req job.type ∩ (suffix job.microBatchId ∪
        suffixUnion req (jobs.drop (k + 1)) job.microBatchId)) ∈ result := by
      have := hidx k job hk
      exact List.getElem?_mem this
    have := assignSkipGcVars_backward_empty req jobs suffix result suffix2
      hres _ hmem hbwd
    exact absurd this hne

/-- C1: in every successful `set_skip_gc_vars` run (reverse scan with one
accumulator per micro-batch), each job instance `(type, m)` receives
`skip_gc_vars = type_to_required_vars[type] ∩ suffix_required[m]`, where
the suffix set equals the union of the required-variable sets of the
later-sequenced jobs on the same micro-batch (after which the job's own
required set is merged into the accumulator). -/
theorem set_skip_gc_vars_characterization (numMicroBatches : Nat)
    (jobTypes : List String) (subPrograms : List Program) (jobs : List Job)
    (registry : Op → Finset String) (result : List (Job × Finset String))
    (_htypes : ∀ job ∈ jobs, job.type ∈ jobTypes)
    (_hmb : ∀ job ∈ jobs, job.microBatchId < numMicroBatches)
    (hok : set_skip_gc_vars numMicroBatches jobTypes subPrograms jobs
      registry = .ok result) :
    result.length = jobs.length ∧
    ∀ k job, jobs[k]? = some job →
      result[k]? = some (job,
        typeToRequiredVars registry (jobTypes.zip subPrograms) job.type ∩
          suffixUnion (typeToRequiredVars registry (jobTypes.zip subPrograms))
            (jobs.drop (k + 1)) job.microBatchId) := by
  unfold set_skip_gc_vars at hok
  split at hok
  · exact absurd hok (by simp)
  · dsimp only at hok
    rcases hassign : assignSkipGcVars
        (typeToRequiredVars registry (jobTypes.zip subPrograms))
        (fun _ => ∅) jobs with e | pr
    · rw [hassign] at hok
      exact absurd hok (by simp [Except.map])
    · rw [hassign] at hok
      obtain ⟨result2, suffix2⟩ := pr
      simp only [Except.map, Except.ok.injEq] at hok
      subst hok
      obtain ⟨hlen, _, hidx⟩ := assignSkipGcVars_ok _ jobs _ result2
        suffix2 hassign
      refine ⟨hlen, fun k job hk => ?_⟩
      have := hidx k job hk
      simpa [Finset.empty_union] using this

/-- An `Except` whose `toOption` is `some` is `ok`. -/
theorem except_eq_ok_of_toOption {e2 a2 : Type} (e : Except e2 a2) (a : a2)
    (h : e.toOption = some a) : e = .ok a := by
  cases e with
  | error err => simp [Except.toOption] at h
  | ok b =>
    simp only [Except.toOption, Option.some.injEq] at h
    rw [h]

/-- The jobs of C1's concrete scenario. -/
def exampleJobs : List Job :=
  [⟨"forward", 0⟩, ⟨"forward", 1⟩, ⟨"backward", 1⟩, ⟨"backward", 0⟩]

/-- A one-op sub-program whose only required variable is `a`. -/
def requiredExampleProgram : Program :=
  { blocks := [{ ops := [{ type := "opX", inputSlots := [("X", ["a"])] }],
                 vars := [{ name := "a" }] }] }

/-- Witness for C1 on the concrete scenario: 2 micro-batches, jobs
`[fwd(0), fwd(1), bwd(1), bwd(0)]`, `required[fwd] = required[bwd] =
{"a"}` produce skip-GC sets `fwd(0) = {"a"}`, `fwd(1) = {"a"}`,
`bwd(1) = ∅`, `bwd(0) = ∅`. -/
theorem set_skip_gc_vars_witness :
    (∀ job ∈ exampleJobs, job.type ∈ ["forward", "backward"]) ∧
    (∀ job ∈ exampleJobs, job.microBatchId < 2) ∧
    ∃ result, set_skip_gc_vars 2 ["forward", "backward"]
        [requiredExampleProgram, requiredExampleProgram] exampleJobs
        (fun _ => ∅) = .ok result ∧
      result.map Prod.snd = [{"a"}, {"a"}, ∅, ∅] ∧
      result.length = exampleJobs.length := by
  refine ⟨by decide, by decide, ?_⟩
  have hok : set_skip_gc_vars 2 ["forward", "backward"]
      [requiredExampleProgram, requiredExampleProgram] exampleJobs
      (fun _ => ∅)
      = .ok [(⟨"forward", 0⟩, {"a"}), (⟨"forward", 1⟩, {"a"}),
             (⟨"backward", 1⟩, ∅), (⟨"backward", 0⟩, ∅)] :=
    except_eq_ok_of_toOption _ _ (by decide)
  refine ⟨_, hok, by decide, ?_⟩
  exact (set_skip_gc_vars_characterization 2 ["forward", "backward"]
    [requiredExampleProgram, requiredExampleProgram] exampleJobs
    (fun _ => ∅) _ (by decide) (by decide) hok).1

/-- C2: every backward-typed job instance in a successful
`set_skip_gc_vars` run has an empty skip-GC set, and whenever the
computation would yield a non-empty set for a backward-typed instance,
`set_skip_gc_vars` fails with the fatal InconsistentScheduleInvariant
error instead of returning. -/
theorem set_skip_gc_vars_backward_invariant (numMicroBatches : Nat)
    (jobTypes : List String) (subPrograms : List Program) (jobs : List Job)
    (registry : Op → Finset String)
    (hnum : 1 ≤ numMicroBatches)
    (_htypes : ∀ job ∈ jobs, job.type ∈ jobTypes)
    (_hmb : ∀ job ∈ jobs, job.microBatchId < numMicroBatches) :
    (∀ result, set_skip_gc_vars numMicroBatches jobTypes subPrograms jobs
        registry = .ok result →
      ∀ pr ∈ result, pr.1.type = "backward" → pr.2 = ∅) ∧
    (∀ k job, jobs[k]? = some job → job.type = "backward" →
      typeToRequiredVars registry (jobTypes.zip subPrograms) job.type ∩
        suffixUnion (typeToRequiredVars registry (jobTypes.zip subPrograms))
          (jobs.drop (k + 1)) job.microBatchId ≠ ∅ →
      set_skip_gc_vars numMicroBatches jobTypes subPrograms jobs registry
        = .error .inconsistentScheduleInvariant) := by
  constructor
  · intro result hok
    unfold set_skip_gc_vars at hok
    split at hok
    · exact absurd hok (by simp)
    · dsimp only at hok
      rcases hassign : assignSkipGcVars
          (typeToRequiredVars registry (jobTypes.zip subPrograms))
          (fun _ => ∅) jobs with e | pr
      · rw [hassign] at hok
        exact absurd hok (by simp [Except.map])
      · rw [hassign] at hok
        obtain ⟨result2, suffix2⟩ := pr
        simp only [Except.map, Except.ok.injEq] at hok
        subst hok
        exact assignSkipGcVars_backward_empty _ jobs _ result2 suffix2
          hassign
  · intro k job hk hbwd hne
    have hassign := assignSkipGcVars_error_of_violation
      (typeToRequiredVars registry (jobTypes.zip subPrograms)) jobs
      (fun _ => ∅) ⟨k, job, hk, hbwd, by simpa [Finset.empty_union] using hne⟩
    unfold set_skip_gc_vars
    rw [if_neg (by omega)]
    dsimp only
    rw [hassign]
    rfl

/-- The jobs of C2's violating scenario: a backward instance executes
before a forward instance on the same micro-batch. -/
def violatingJobs : List Job := [⟨"backward", 0⟩, ⟨"forward", 0⟩]

/-- Witness for C2: on the violating scenario the run fails with the
InconsistentScheduleInvariant error, and on C1's consistent scenario every
backward job records the empty set. -/
theorem set_skip_gc_vars_backward_witness :
    set_skip_gc_vars 2 ["forward", "backward"]
      [requiredExampleProgram, requiredExampleProgram] violatingJobs
      (fun _ => ∅) = .error .inconsistentScheduleInvariant :=
  (set_skip_gc_vars_backward_invariant 2 ["forward", "backward"]
    [requiredExampleProgram, requiredExampleProgram] violatingJobs
    (fun _ => ∅) (by decide) (by decide) (by decide)).2
    0 ⟨"backward", 0⟩ (by decide) (by decide) (by decide)

/-! ### C10: unclassified op roles in `_program_for_fthenb_and_1f1b` -/

/-- Decidable equality of `Except` values. -/
instance instDecEqExcept {e2 a2 : Type} [DecidableEq e2] [DecidableEq a2] :
    DecidableEq (Except e2 a2)
  | .error x, .error y =>
    if h : x = y then .isTrue (by rw [h])
    else .isFalse (fun hc => h (Except.error.inj hc))
  | .error _, .ok _ => .isFalse (fun hc => Except.noConfusion hc)
  | .ok _, .error _ => .isFalse (fun hc => Except.noConfusion hc)
  | .ok x, .ok y =>
    if h : x = y then .isTrue (by rw [h])
    else .isFalse (fun hc => h (Except.ok.inj hc))

/-- A non-fetch op that no classifier accepts has the unclassified role. -/
theorem role_other_of_unclassified (op : Op)
    (h1 : is_forward_op op.role = false) (h2 : is_backward_op op.role = false)
    (h3 : is_optimize_op op.role = false) : op.role = Role.Other := by
  rcases hr : op.role
  · rw [hr] at h1; simp [is_forward_op] at h1
  · rw [hr] at h2; simp [is_backward_op] at h2
  · rw [hr] at h3; simp [is_optimize_op] at h3
  · rfl

/-- `_split_opsGo` fails with the Other-role `ValueError` whenever a
non-fetch unclassified op occurs in its input. -/
theorem split_opsGo_error : ∀ (ops : List Op)
    (acc : List Op × List Op × List Op),
    (∃ op ∈ ops, ¬ _is_fetch_op op = true ∧ op.role = Role.Other) →
    _split_opsGo ops acc = .error (.valueErrorOpRole Role.Other)
  | [], acc => by
    rintro ⟨op, hmem, _⟩
    exact absurd hmem (by simp)
  | op :: rest, (f, b, o) => by
    rintro ⟨w, hw, hnf, hrole⟩
    unfold _split_opsGo
    by_cases hfetch : _is_fetch_op op = true
    · rw [if_pos hfetch]
      refine split_opsGo_error rest _ ⟨w, ?_, hnf, hrole⟩
      rcases List.mem_cons.mp hw with rfl | htail
      · exact absurd hfetch hnf
      · exact htail
    · rw [if_neg hfetch]
      by_cases hf : is_forward_op op.role = true
      · rw [if_pos hf]
        refine split_opsGo_error rest _ ⟨w, ?_, hnf, hrole⟩
        rcases List.mem_cons.mp hw with rfl | htail
        · rw [hrole] at hf; simp [is_forward_op] at hf
        · exact htail
      · rw [if_neg hf]
        by_cases hb : is_backward_op op.role = true
        · rw [if_pos hb]
          refine split_opsGo_error rest _ ⟨w, ?_, hnf, hrole⟩
          rcases List.mem_cons.mp hw with rfl | htail
          · rw [hrole] at hb; simp [is_backward_op] at hb
          · exact htail
        · rw [if_neg hb]
          by_cases ho : is_optimize_op op.role = true
          · rw [if_pos ho]
            refine split_opsGo_error rest _ ⟨w, ?_, hnf, hrole⟩
            rcases List.mem_cons.mp hw with rfl | htail
            · rw [hrole] at ho; simp [is_optimize_op] at ho
            · exact htail
          · rw [if_neg ho]
            rw [role_other_of_unclassified op
              (Bool.eq_false_iff.mpr hf) (Bool.eq_false_iff.mpr hb)
              (Bool.eq_false_iff.mpr ho)]

/-- `_split_opsGo` succeeds when every op is a fetch op or classified. -/
theorem split_opsGo_ok : ∀ (ops : List Op)
    (acc : List Op × List Op × List Op),
    (∀ op ∈ ops, _is_fetch_op op = true ∨ op.role ≠ Role.Other) →
    ∃ r, _split_opsGo ops acc = .ok r
  | [], acc => fun _ => ⟨acc, rfl⟩
  | op :: rest, (f, b, o) => by
    intro h
    unfold _split_opsGo
    have hrest : ∀ op2 ∈ rest, _is_fetch_op op2 = true ∨ op2.role ≠ Role.Other :=
      fun op2 hm => h op2 (List.mem_cons_of_mem op hm)
    by_cases hfetch : _is_fetch_op op = true
    · rw [if_pos hfetch]
      exact split_opsGo_ok rest _ hrest
    · rw [if_neg hfetch]
      have hrole : op.role ≠ Role.Other := by
        rcases h op (by simp) with hc | hc
        · exact absurd hc hfetch
        · exact hc
      by_cases hf : is_forward_op op.role = true
      · rw [if_pos hf]
        exact split_opsGo_ok rest _ hrest
      · rw [if_neg hf]
        by_cases hb : is_backward_op op.role = true
        · rw [if_pos hb]
          exact split_opsGo_ok rest _ hrest
        · rw [if_neg hb]
          by_cases ho : is_optimize_op op.role = true
          · rw [if_pos ho]
            exact split_opsGo_ok rest _ hrest
          · exact absurd (role_other_of_unclassified op
              (Bool.eq_false_iff.mpr hf) (Bool.eq_false_iff.mpr hb)
              (Bool.eq_false_iff.mpr ho)) hrole

/-- A fetch op with at least one input never fails the fetch-relocation
step. -/
theorem fetchStep_ok (preProg : Program) (srcIdx : Nat) (st : FState)
    (fetchOp : Op) (h : fetchOp.input_arg_names ≠ []) :
    ∃ st2, fetchStep preProg srcIdx st fetchOp = .ok st2 := by
  unfold fetchStep
  rcases hn : fetchOp.input_arg_names[0]? with _ | n
  · rw [List.getElem?_eq_none_iff] at hn
    rcases hl : fetchOp.input_arg_names with _ | _
    · exact absurd hl h
    · rw [hl] at hn
      simp at hn
  · dsimp only
    split
    · exact ⟨_, rfl⟩
    · split
      · exact ⟨_, rfl⟩
      · split
        · exact ⟨_, rfl⟩
        · exact ⟨_, rfl⟩

/-- The fetch-relocation fold succeeds when every fetch op has an input. -/
theorem foldlM_fetch_ok (preProg : Program) (srcIdx : Nat) :
    ∀ (l : List Op) (st : FState),
      (∀ op ∈ l, op.input_arg_names ≠ []) →
      ∃ st2, l.foldlM (fetchStep preProg srcIdx) st = .ok st2
  | [], st => fun _ => ⟨st, rfl⟩
  | op :: rest, st => by
    intro h
    obtain ⟨st1, hst1⟩ := fetchStep_ok preProg srcIdx st op (h op (by simp))
    obtain ⟨st2, hst2⟩ := foldlM_fetch_ok preProg srcIdx rest st1
      (fun op2 hm => h op2 (List.mem_cons_of_mem op hm))
    refine ⟨st2, ?_⟩
    rw [List.foldlM_cons, hst1]
    exact hst2

/-- A block without unclassified non-fetch ops, all of whose fetch ops
have inputs, passes its loop iteration. -/
theorem programForBlockStep_ok (preProg : Program) (st : FState) (i : Nat)
    (hgood : ∀ op ∈ (preProg.blocks.getD i {}).ops,
      _is_fetch_op op = true ∨ op.role ≠ Role.Other)
    (hfetch : ∀ op ∈ (preProg.blocks.getD i {}).ops,
      _is_fetch_op op = true → op.input_arg_names ≠ []) :
    ∃ st2, programForBlockStep preProg st i = .ok st2 := by
  unfold programForBlockStep
  dsimp only
  obtain ⟨⟨fwdOps, bwdOps, optOps⟩, hsplit⟩ :=
    split_opsGo_ok (preProg.blocks.getD i {}).ops ([], [], []) hgood
  rw [show _split_ops (preProg.blocks.getD i {})
    = _split_opsGo (preProg.blocks.getD i {}).ops ([], [], []) from rfl]
  rw [hsplit]
  simp only [Except.bind, bind, pure]
  have hfetchlist : ∀ op ∈ (preProg.blocks.getD i {}).ops.filter _is_fetch_op,
      op.input_arg_names ≠ [] := by
    intro op hm
    rw [List.mem_filter] at hm
    exact hfetch op hm.1 hm.2
  split
  · obtain ⟨st2, hst2⟩ := foldlM_fetch_ok preProg i
      ((preProg.blocks.getD i {}).ops.filter _is_fetch_op) _ hfetchlist
    exact ⟨st2, hst2⟩
  · obtain ⟨st2, hst2⟩ := foldlM_fetch_ok preProg i
      ((preProg.blocks.getD i {}).ops.filter _is_fetch_op) _ hfetchlist
    exact ⟨st2, hst2⟩

/-- A block containing an unclassified non-fetch op fails its loop
iteration with the Other-role `ValueError`. -/
theorem programForBlockStep_error (preProg : Program) (st : FState) (i : Nat)
    (hbad : ∃ op ∈ (preProg.blocks.getD i {}).ops,
      ¬ _is_fetch_op op = true ∧ op.role = Role.Other) :
    programForBlockStep preProg st i
      = .error (.valueErrorOpRole Role.Other) := by
  unfold programForBlockStep
  dsimp only
  rw [show _split_ops (preProg.blocks.getD i {})
    = _split_opsGo (preProg.blocks.getD i {}).ops ([], [], []) from rfl]
  rw [split_opsGo_error (preProg.blocks.getD i {}).ops ([], [], []) hbad]
  rfl

/-- The block loop fails with the Other-role `ValueError` whenever some
listed block contains an unclassified non-fetch op and every fetch op of
the listed blocks has an input. -/
theorem foldlM_blocks_error (preProg : Program) :
    ∀ (idxs : List Nat) (st : FState),
      (∀ i ∈ idxs, ∀ op ∈ (preProg.blocks.getD i {}).ops,
        _is_fetch_op op = true → op.input_arg_names ≠ []) →
      (∃ i ∈ idxs, ∃ op ∈ (preProg.blocks.getD i {}).ops,
        ¬ _is_fetch_op op = true ∧ op.role = Role.Other) →
      idxs.foldlM (programForBlockStep preProg) st
        = .error (.valueErrorOpRole Role.Other)
  | [], st => by
    rintro _ ⟨i, hmem, _⟩
    exact absurd hmem (by simp)
  | i :: rest, st => by
    rintro hfetch ⟨j, hj, op, hop, hnf, hrole⟩
    rw [List.foldlM_cons]
    by_cases hblk : ∃ op2 ∈ (preProg.blocks.getD i {}).ops,
        ¬ _is_fetch_op op2 = true ∧ op2.role = Role.Other
    · rw [programForBlockStep_error preProg st i hblk]
      rfl
    · have hgood : ∀ op2 ∈ (preProg.blocks.getD i {}).ops,
          _is_fetch_op op2 = true ∨ op2.role ≠ Role.Other := by
        intro op2 hm
        by_cases hc : _is_fetch_op op2 = true
        · exact Or.inl hc
        · refine Or.inr (fun hrole2 => hblk ⟨op2, hm, hc, hrole2⟩)
      obtain ⟨st1, hst1⟩ := programForBlockStep_ok preProg st i hgood
        (fun op2 hm hf => hfetch i (by simp) op2 hm hf)
      rw [hst1]
      show rest.foldlM (programForBlockStep preProg) st1 = _
      refine foldlM_blocks_error preProg rest st1
        (fun k hk op2 hm hf => hfetch k (List.mem_cons_of_mem i hk) op2 hm hf)
        ⟨j, ?_, op, hop, hnf, hrole⟩
      rcases List.mem_cons.mp hj with rfl | htail
      · exact absurd ⟨op, hop, hnf, hrole⟩ hblk
      · exact htail

/-- `overlapOp` preserves an op's type, role and input names. -/
theorem overlapOp_preserves (op : Op) :
    (overlapOp op).type = op.type ∧ (overlapOp op).role = op.role ∧
    (overlapOp op).input_arg_names = op.input_arg_names := by
  unfold overlapOp
  split
  · exact ⟨rfl, rfl, rfl⟩
  · split
    · exact ⟨rfl, rfl, rfl⟩
    · exact ⟨rfl, rfl, rfl⟩

/-- C10 (amended): with send/receive overlap enabled, whenever any block
contains a non-fetch operator whose role is classified as none of
Forward, Backward or Optimize (i.e. the unclassified role), and every
fetch operator carries an input, `_program_for_fthenb_and_1f1b` fails
with the `ValueError` naming the offending role rather than silently
placing the operator.  (With overlap disabled, the explicit-barrier
preprocessing can fail first with a different error — see
`program_for_role_counterexample`.) -/
theorem program_for_role_value_error (useNewExecutor : Bool) (p : Program)
    (hfetch : ∀ b ∈ p.blocks, ∀ op ∈ b.ops, _is_fetch_op op = true →
      op.input_arg_names ≠ [])
    (hbad : ∃ b ∈ p.blocks, ∃ op ∈ b.ops, ¬ _is_fetch_op op = true ∧
      op.role = Role.Other) :
    _program_for_fthenb_and_1f1b useNewExecutor p true
      = .error (.valueErrorOpRole Role.Other) := by
  have hblkmap : ∀ i, ((_overlap_send_recv p).blocks.getD i {}).ops
      = ((p.blocks.getD i {}).ops).map overlapOp := by
    intro i
    unfold _overlap_send_recv
    by_cases hi : i < p.blocks.length
    · rw [List.getD_eq_getElem?_getD, List.getElem?_map,
        List.getElem?_eq_getElem hi]
      rw [List.getD_eq_getElem?_getD, List.getElem?_eq_getElem hi]
      rfl
    · rw [List.getD_eq_getElem?_getD, List.getElem?_map,
        List.getElem?_eq_none (by simpa using hi)]
      rw [List.getD_eq_getElem?_getD,
        List.getElem?_eq_none (by simpa using hi)]
      rfl
  have hfold : (List.range (_overlap_send_recv p).blocks.length).foldlM
      (programForBlockStep (_overlap_send_recv p)) {}
      = .error (.valueErrorOpRole Role.Other) := by
    refine foldlM_blocks_error (_overlap_send_recv p) _ {} ?_ ?_
    · intro i _ op2 hm hf
      rw [hblkmap i] at hm
      obtain ⟨op0, hop0, rfl⟩ := List.mem_map.mp hm
      obtain ⟨ht, _, hin⟩ := overlapOp_preserves op0
      rw [hin]
      by_cases hi : i < p.blocks.length
      · refine hfetch (p.blocks.getD i {}) ?_ op0 hop0 ?_
        · rw [List.getD_eq_getElem?_getD, List.getElem?_eq_getElem hi]
          exact List.getElem_mem hi
        · unfold _is_fetch_op at hf ⊢
          rw [← ht]
          exact hf
      · rw [List.getD_eq_default _ _ (by omega)] at hop0
        exact absurd hop0 (by simp)
    · obtain ⟨b, hb, op, hop, hnf, hrole⟩ := hbad
      obtain ⟨i, hgb⟩ := List.getElem?_of_mem hb
      have hi : i < p.blocks.length := by
        by_contra hge
        rw [List.getElem?_eq_none (by omega)] at hgb
        exact absurd hgb (by simp)
      refine ⟨i, ?_, overlapOp op, ?_, ?_, ?_⟩
      · rw [List.mem_range]
        show i < ((_overlap_send_recv p).blocks).length
        unfold _overlap_send_recv
        rw [List.length_map]
        exact hi
      · rw [hblkmap i]
        refine List.mem_map.mpr ⟨op, ?_, rfl⟩
        rw [List.getD_eq_getElem?_getD, hgb]
        exact hop
      · obtain ⟨ht, _, _⟩ := overlapOp_preserves op
        unfold _is_fetch_op at hnf ⊢
        rw [ht]
        exact hnf
      · rw [(overlapOp_preserves op).2.1]
        exact hrole
  unfold _program_for_fthenb_and_1f1b
  rw [if_pos rfl]
  show ((List.range (_overlap_send_recv p).blocks.length).foldlM
      (programForBlockStep (_overlap_send_recv p)) {}).bind _ = _
  rw [hfold]
  rfl

/-- Concrete program for the C10 counterexample and witness: a
backward-role `send_v2` (with no optimize op in the block) followed by an
op of unclassified role. -/
def rolesCexProgram : Program :=
  { blocks := [{ ops := [{ type := "send_v2", role := Role.Backward,
                           inputSlots := [("X", ["v"])] },
                         { type := "foo", role := Role.Other }],
                 vars := [{ name := "v" }] }] }

/-- C10 counterexample: with the explicit-barrier strategy (overlap
disabled), `rolesCexProgram` contains a non-fetch op of unclassified role,
yet the pass fails with the `TypeError` of the sync-insertion
preprocessing (`first_optimize_index` is `None` for its backward send),
not with the role-naming `ValueError` the claim requires. -/
theorem program_for_role_counterexample :
    _program_for_fthenb_and_1f1b true rolesCexProgram false
      = .error .typeError ∧
    (∀ r, PassError.typeError ≠ .valueErrorOpRole r) ∧
    ∃ b ∈ rolesCexProgram.blocks, ∃ op ∈ b.ops,
      ¬ _is_fetch_op op = true ∧ op.role = Role.Other := by
  refine ⟨by decide, fun r => by simp, by decide⟩

/-- Witness for the amended C10 theorem: with overlap enabled the same
program fails with the role-naming `ValueError`. -/
theorem program_for_role_witness :
    (∀ b ∈ rolesCexProgram.blocks, ∀ op ∈ b.ops, _is_fetch_op op = true →
      op.input_arg_names ≠ []) ∧
    _program_for_fthenb_and_1f1b true rolesCexProgram true
      = .error (.valueErrorOpRole Role.Other) :=
  ⟨by decide,
   program_for_role_value_error true rolesCexProgram (by decide) (by decide)⟩

end PassUtils
